import Mathlib

/-!
# go-git: content-addressed object store and commit chain

A shallow embedding of `main.go` (commands `add`, `commit`, `log`) together with the
parts of the Go standard library it calls (`crypto/sha1`, `fmt`, `strings`, `time`,
`io/ioutil`), followed by theorems about the embedded program.

Conventions.
* A Go `string` and a Go `[]byte` are both a finite sequence of bytes: `Bytes`.
* The file system is the explicit state `World`.  The two store directories hold
  regular files only (the program creates nothing else there) and a directory is a
  list of `(name, content)` entries; `ioutil.ReadDir` sorts the names.  A store
  directory may be absent or unreachable, a write may be refused or stop part-way, and
  a path may reach a file of the store by another spelling.
* `time.Now()` is an argument of `commit`: the civil reading of the clock in the
  process's time zone.
* A command returns a `Result`: the file system it leaves behind, what it printed on
  standard output, and how the process ended.
-/

namespace GoGit

/-! ## Bytes and strings -/

abbrev Byte := Fin 256
abbrev Bytes := List Byte

/-- The bytes of an ASCII string literal of the source. -/
def ascii (s : String) : Bytes := s.toList.map (fun c => Fin.ofNat c.toNat)

/-- Go's `<` on strings: bytewise lexicographic order. -/
def strLt : Bytes → Bytes → Bool
  | [], [] => false
  | [], _ :: _ => true
  | _ :: _, [] => false
  | a :: as, b :: bs => decide (a < b) || (decide (a = b) && strLt as bs)

/-- `strings.Join(elems, sep)`. -/
def Join : List Bytes → Bytes → Bytes
  | [], _ => []
  | [a], _ => a
  | a :: b :: rest, sep => a ++ sep ++ Join (b :: rest) sep

/-- `filepath.Join(dir, name)` for a directory constant and a single path element:
`Clean` leaves such a path as it is. -/
def filepathJoin (dir name : Bytes) : Bytes := dir ++ ascii "/" ++ name

def objectsDir : Bytes := ascii ".go-git/objects"
def commitsDir : Bytes := ascii ".go-git/commits"

/-! ## crypto/sha1 and `%x` -/

/-- `bits.RotateLeft32(x, k)` for `x < 2 ^ 32` and `0 < k < 32`. -/
def rotl32 (x k : Nat) : Nat := ((x <<< k) % 2 ^ 32) ||| (x >>> (32 - k))

/-- The five 32-bit chaining words `h[0..4]` of `sha1.digest`. -/
structure Digest where
  h0 : Nat
  h1 : Nat
  h2 : Nat
  h3 : Nat
  h4 : Nat

def sha1Init : Digest := ⟨0x67452301, 0xEFCDAB89, 0x98BADCFE, 0x10325476, 0xC3D2E1F0⟩

/-- `binary.BigEndian.PutUint64`. -/
def be64 (n : Nat) : List Nat :=
  [n >>> 56 % 256, n >>> 48 % 256, n >>> 40 % 256, n >>> 32 % 256,
   n >>> 24 % 256, n >>> 16 % 256, n >>> 8 % 256, n % 256]

/-- The padding `checkSum` appends to a message of `len` bytes: a 1 bit, 0 bits up to
56 bytes mod 64, then the length in bits as a 64-bit big-endian number. -/
def sha1Pad (len : Nat) : List Nat :=
  let t := if len % 64 < 56 then 56 - len % 64 else 64 + 56 - len % 64
  0x80 :: List.replicate (t - 1) 0 ++ be64 ((len <<< 3) % 2 ^ 64)

/-- The first `n` big-endian 32-bit words of a chunk. -/
def beWords : Nat → List Nat → List Nat
  | 0, _ => []
  | n + 1, p =>
    (p.getD 0 0 <<< 24 ||| p.getD 1 0 <<< 16 ||| p.getD 2 0 <<< 8 ||| p.getD 3 0)
      :: beWords n (p.drop 4)

/-- The message schedule, newest word first: `n` more words
`w[i] = rotl1 (w[i-3] ^ w[i-8] ^ w[i-14] ^ w[i-16])`. -/
def schedule : Nat → List Nat → List Nat
  | 0, r => r
  | n + 1, r =>
    schedule n (rotl32 (r.getD 2 0 ^^^ r.getD 7 0 ^^^ r.getD 13 0 ^^^ r.getD 15 0) 1 :: r)

def roundF (i b c d : Nat) : Nat :=
  if i < 20 then (b &&& c) ||| ((b ^^^ 0xFFFFFFFF) &&& d)
  else if i < 40 then b ^^^ c ^^^ d
  else if i < 60 then ((b ||| c) &&& d) ||| (b &&& c)
  else b ^^^ c ^^^ d

def roundK (i : Nat) : Nat :=
  if i < 20 then 0x5A827999 else if i < 40 then 0x6ED9EBA1
  else if i < 60 then 0x8F1BBCDC else 0xCA62C1D6

/-- The rounds of `blockGeneric` from round `i` on, one per schedule word. -/
def rounds : Nat → List Nat → Digest → Digest
  | _, [], s => s
  | i, w :: ws, ⟨a, b, c, d, e⟩ =>
    rounds (i + 1) ws
      ⟨(rotl32 a 5 + roundF i b c d + e + w + roundK i) % 2 ^ 32, a, rotl32 b 30, c, d⟩

/-- One 64-byte chunk of `blockGeneric`. -/
def block (dig : Digest) (p : List Nat) : Digest :=
  let w := (schedule 64 (beWords 16 p).reverse).reverse
  let r := rounds 0 w dig
  ⟨(dig.h0 + r.h0) % 2 ^ 32, (dig.h1 + r.h1) % 2 ^ 32, (dig.h2 + r.h2) % 2 ^ 32,
   (dig.h3 + r.h3) % 2 ^ 32, (dig.h4 + r.h4) % 2 ^ 32⟩

/-- The chunk loop of `blockGeneric` over `n` chunks. -/
def blocks : Nat → Digest → List Nat → Digest
  | 0, dig, _ => dig
  | n + 1, dig, p => blocks n (block dig (p.take 64)) (p.drop 64)

def be32 (n : Nat) : List Nat := [n >>> 24 % 256, n >>> 16 % 256, n >>> 8 % 256, n % 256]

/-- The 20 digest bytes: `h := sha1.New(); h.Write(content); h.Sum(nil)`. -/
def sha1Sum (content : Bytes) : List Nat :=
  let p := content.map Fin.val ++ sha1Pad content.length
  let d := blocks (p.length / 64) sha1Init p
  be32 d.h0 ++ be32 d.h1 ++ be32 d.h2 ++ be32 d.h3 ++ be32 d.h4

/-- One lowercase hexadecimal digit, for `n < 16`. -/
def hexDigit (n : Nat) : Byte :=
  if n < 10 then Fin.ofNat (48 + n) else Fin.ofNat (87 + n)

/-- `fmt.Sprintf("%x", b)` for a byte slice: two lowercase digits per byte. -/
def hexBytes : List Nat → Bytes
  | [] => []
  | b :: bs => hexDigit (b / 16) :: hexDigit (b % 16) :: hexBytes bs

/-- `sha1sum` of the source: the lowercase hexadecimal SHA-1 digest of `content`. -/
def sha1sum (content : Bytes) : Bytes := hexBytes (sha1Sum content)

/-- `getObjectPath` of the source. -/
def getObjectPath (content : Bytes) : Bytes := filepathJoin objectsDir (sha1sum content)

/-! ## strings.TrimSpace -/

def RuneError : Nat := 0xFFFD

/-- `unicode.IsSpace`. -/
def isSpace (r : Nat) : Bool :=
  if r ≤ 0xFF then
    r = 0x09 || r = 0x0A || r = 0x0B || r = 0x0C || r = 0x0D || r = 0x20 || r = 0x85 || r = 0xA0
  else
    r = 0x1680 || (0x2000 ≤ r && r ≤ 0x200A) || r = 0x2028 || r = 0x2029 || r = 0x202F
      || r = 0x205F || r = 0x3000

def isCont (b : Nat) : Bool := 0x80 ≤ b && b ≤ 0xBF

/-- `utf8.DecodeRuneInString`: the first rune of `s` and its width in bytes;
`(RuneError, 1)` for an invalid encoding, `(RuneError, 0)` for the empty string. -/
def decodeRune (s : List Nat) : Nat × Nat :=
  match s with
  | [] => (RuneError, 0)
  | b0 :: rest =>
    if b0 < 0x80 then (b0, 1)
    else if 0xC2 ≤ b0 && b0 ≤ 0xDF then
      match rest with
      | b1 :: _ =>
        if isCont b1 then ((b0 &&& 0x1F) <<< 6 ||| (b1 &&& 0x3F), 2) else (RuneError, 1)
      | _ => (RuneError, 1)
    else if 0xE0 ≤ b0 && b0 ≤ 0xEF then
      match rest with
      | b1 :: b2 :: _ =>
        let lo := if b0 = 0xE0 then 0xA0 else 0x80
        let hi := if b0 = 0xED then 0x9F else 0xBF
        if lo ≤ b1 && b1 ≤ hi && isCont b2 then
          ((b0 &&& 0x0F) <<< 12 ||| (b1 &&& 0x3F) <<< 6 ||| (b2 &&& 0x3F), 3)
        else (RuneError, 1)
      | _ => (RuneError, 1)
    else if 0xF0 ≤ b0 && b0 ≤ 0xF4 then
      match rest with
      | b1 :: b2 :: b3 :: _ =>
        let lo := if b0 = 0xF0 then 0x90 else 0x80
        let hi := if b0 = 0xF4 then 0x8F else 0xBF
        if lo ≤ b1 && b1 ≤ hi && isCont b2 && isCont b3 then
          ((b0 &&& 0x07) <<< 18 ||| (b1 &&& 0x3F) <<< 12 ||| (b2 &&& 0x3F) <<< 6
            ||| (b3 &&& 0x3F), 4)
        else (RuneError, 1)
      | _ => (RuneError, 1)
    else (RuneError, 1)

/-- The backwards scan of `utf8.DecodeLastRuneInString` for the start of the last rune:
`for start--; start >= lim; start-- { if RuneStart(s[start]) { break } }`. -/
def lastRuneStart (s : List Nat) (lim : Int) : Nat → Int → Int
  | 0, start => start
  | fuel + 1, start =>
    if lim ≤ start then
      if s.getD start.toNat 0 &&& 0xC0 ≠ 0x80 then start
      else lastRuneStart s lim fuel (start - 1)
    else start

/-- `utf8.DecodeLastRuneInString`. -/
def decodeLastRune (s : List Nat) : Nat × Nat :=
  let stop : Int := s.length
  if stop = 0 then (RuneError, 0)
  else
    let r := s.getD (s.length - 1) 0
    if r < 0x80 then (r, 1)
    else
      let lim : Int := if stop - 4 < 0 then 0 else stop - 4
      let start := lastRuneStart s lim 4 (stop - 2)
      let start := if start < 0 then 0 else start
      let (r, size) := decodeRune (s.drop start.toNat)
      if start + size ≠ stop then (RuneError, 1) else (r, size)

/-- `strings.TrimLeftFunc(s, unicode.IsSpace)`: drop leading white-space runes. -/
def trimLeftSpace : Nat → Bytes → Bytes
  | 0, s => s
  | fuel + 1, s =>
    match s with
    | [] => []
    | _ :: _ =>
      let (r, size) := decodeRune (s.map Fin.val)
      if isSpace r then trimLeftSpace fuel (s.drop size) else s

/-- The loop of `lastIndexFunc(s, unicode.IsSpace, false)`: the index of the last rune
that is not white space, `-1` when there is none. -/
def lastIndexNotSpace (s : Bytes) : Nat → Nat → Int
  | 0, _ => -1
  | fuel + 1, i =>
    if i = 0 then -1
    else
      let (r, size) := decodeLastRune ((s.take i).map Fin.val)
      if isSpace r then lastIndexNotSpace s fuel (i - size) else ((i - size : Nat) : Int)

/-- `strings.TrimRightFunc(s, unicode.IsSpace)`. -/
def trimRightSpace (s : Bytes) : Bytes :=
  let i := lastIndexNotSpace s s.length s.length
  if 0 ≤ i && 0x80 ≤ (s.map Fin.val).getD i.toNat 0 then
    s.take (i.toNat + (decodeRune ((s.drop i.toNat).map Fin.val)).2)
  else s.take (i + 1).toNat

/-- `strings.TrimSpace(s)`, that is `TrimFunc(s, unicode.IsSpace)`. -/
def TrimSpace (s : Bytes) : Bytes := trimRightSpace (trimLeftSpace s.length s)

/-! ## time.Time.Format("2006-01-02T15-04-05") -/

/-- The civil reading of `time.Now()` in the local time zone. -/
structure Time where
  year : Int
  month : Nat
  day : Nat
  hour : Nat
  minute : Nat
  second : Nat
  nsec : Nat

/-- Field ranges of a calendar date-time. -/
def Time.Valid (t : Time) : Prop :=
  1 ≤ t.month ∧ t.month ≤ 12 ∧ 1 ≤ t.day ∧ t.day ≤ 31 ∧ t.hour ≤ 23 ∧ t.minute ≤ 59 ∧
    t.second ≤ 59 ∧ t.nsec < 1000000000

instance (t : Time) : Decidable t.Valid :=
  inferInstanceAs (Decidable (1 ≤ t.month ∧ t.month ≤ 12 ∧ 1 ≤ t.day ∧ t.day ≤ 31 ∧ t.hour ≤ 23 ∧
    t.minute ≤ 59 ∧ t.second ≤ 59 ∧ t.nsec < 1000000000))

/-- Chronological order of two civil date-times of one time zone. -/
def Time.before (a b : Time) : Bool :=
  decide (a.year < b.year) || (decide (a.year = b.year) &&
  (decide (a.month < b.month) || (decide (a.month = b.month) &&
  (decide (a.day < b.day) || (decide (a.day = b.day) &&
  (decide (a.hour < b.hour) || (decide (a.hour = b.hour) &&
  (decide (a.minute < b.minute) || (decide (a.minute = b.minute) &&
  (decide (a.second < b.second) || (decide (a.second = b.second) &&
  decide (a.nsec < b.nsec))))))))))))

/-- Two date-times lie in the same whole second. -/
def Time.sameSecond (a b : Time) : Bool :=
  decide (a.year = b.year) && decide (a.month = b.month) && decide (a.day = b.day) &&
    decide (a.hour = b.hour) && decide (a.minute = b.minute) && decide (a.second = b.second)

/-- The decimal digits of `u`, most significant first, as `appendInt` assembles them in
its 20-byte buffer. -/
def decDigits : Nat → Nat → Bytes → Bytes
  | 0, _, acc => acc
  | fuel + 1, u, acc =>
    if 10 ≤ u then decDigits fuel (u / 10) (Fin.ofNat (48 + u % 10) :: acc)
    else Fin.ofNat (48 + u) :: acc

/-- `appendInt(b, x, width)` of package `time`: a minus sign for a negative `x`, then
the decimal digits zero-padded to `width`. -/
def appendInt (b : Bytes) (x : Int) (width : Nat) : Bytes :=
  let b := if x < 0 then b ++ ascii "-" else b
  let ds := decDigits 20 x.natAbs []
  b ++ List.replicate (width - ds.length) (Fin.ofNat 48) ++ ds

/-- `t.Format("2006-01-02T15-04-05")`: the layout is year, zero-padded month, day, hour,
minute and second, separated by the literal bytes `-`, `-`, `T`, `-`, `-`. -/
def Time.Format (t : Time) : Bytes :=
  let b := appendInt [] t.year 4
  let b := b ++ ascii "-"
  let b := appendInt b t.month 2
  let b := b ++ ascii "-"
  let b := appendInt b t.day 2
  let b := b ++ ascii "T"
  let b := appendInt b t.hour 2
  let b := b ++ ascii "-"
  let b := appendInt b t.minute 2
  let b := b ++ ascii "-"
  appendInt b t.second 2

/-! ## The file system -/

/-- A directory of regular files: `(name, content)` entries. -/
abbrev Dir := List (Bytes × Bytes)

/-- The content of the file called `name`, if there is one. -/
def Dir.read : Dir → Bytes → Option Bytes
  | [], _ => none
  | (m, x) :: d, n => if m = n then some x else Dir.read d n

/-- Create the file `name`, or truncate and rewrite it when it exists. -/
def Dir.write : Dir → Bytes → Bytes → Dir
  | [], n, c => [(n, c)]
  | (m, x) :: d, n, c => if m = n then (m, c) :: d else (m, x) :: Dir.write d n c

/-- The names of a directory. -/
def Dir.names (d : Dir) : List Bytes := d.map Prod.fst

/-- A directory has one entry per name. -/
def Dir.WF (d : Dir) : Prop := d.names.Nodup

/-- The order `ioutil.ReadDir` sorts by: `a` is not after `b`. -/
def NameLe (a b : Bytes) : Prop := strLt b a = false

instance : DecidableRel NameLe := fun a b => inferInstanceAs (Decidable (strLt b a = false))

/-- The names of a directory in the order `ioutil.ReadDir` returns them: sorted by
filename. -/
def Dir.listing (d : Dir) : List Bytes := d.names.insertionSort NameLe

/-- What a path names: an object of the store, a commit record, or a file outside the
two store directories. -/
inductive Loc where
  | object (name : Bytes)
  | commitRecord (name : Bytes)
  | outside

/-- The file system as the program sees it.
* `work`: the files outside the two store directories, by path.
* `objects`, `commits`: the two store directories; `none` when the directory cannot be
  used at all.
* `unreachable`: why a store directory that is `none` cannot be used. `false`: it does
  not exist (`ENOENT`, the state before `init`). `true`: a component of its path is not
  a searchable directory (`EACCES`, `ENOTDIR`), so that `os.Stat` below it fails with an
  error that is not a not-exist error.
* `locked`: the paths at which `ioutil.WriteFile` fails.
* `torn`: what a failing `ioutil.WriteFile` leaves at a locked path. `none`: the file
  could not be opened and nothing is created. `some k`: the file was created and
  truncated, and the write stopped after the first `k` bytes.
* `aliasOf`: what the operating system resolves a path to that is not spelled as the
  program spells its own store paths (`./`, `..`, absolute paths, links). -/
structure World where
  work : Dir
  objects : Option Dir
  commits : Option Dir
  locked : Bytes → Bool
  torn : Bytes → Option Nat
  unreachable : Bool
  aliasOf : Bytes → Loc

/-- The rest of `s` after the prefix `p`. -/
def stripLeading : Bytes → Bytes → Option Bytes
  | [], s => some s
  | _ :: _, [] => none
  | p :: ps, c :: cs => if p = c then stripLeading ps cs else none

/-- What a path names: the program's own spellings `.go-git/objects/<name>` and
`.go-git/commits/<name>` name that object or record; for every other spelling the
file system decides. -/
def resolve (w : World) (path : Bytes) : Loc :=
  match stripLeading (objectsDir ++ ascii "/") path with
  | some n => .object n
  | none =>
    match stripLeading (commitsDir ++ ascii "/") path with
    | some n => .commitRecord n
    | none => w.aliasOf path

/-- `ioutil.ReadFile(path)`; `none` is an error. -/
def readFile (w : World) (path : Bytes) : Option Bytes :=
  match resolve w path with
  | .object n => w.objects.bind (fun d => d.read n)
  | .commitRecord n => w.commits.bind (fun d => d.read n)
  | .outside => w.work.read path

/-- Whether `os.Stat` in a store directory finds no file called `name`: `true` is the
not-exist error; `false` is a file that is there, or the error of an unreachable
directory. -/
def statMissing (w : World) (dir : Option Dir) (name : Bytes) : Bool :=
  match dir with
  | some d => (d.read name).isNone
  | none => !w.unreachable

/-- `_, err := os.Stat(path); os.IsNotExist(err)`: `false` both when the file exists
and when `os.Stat` fails with any other error. -/
def statNotExist (w : World) (path : Bytes) : Bool :=
  match resolve w path with
  | .object n => statMissing w w.objects n
  | .commitRecord n => statMissing w w.commits n
  | .outside => (w.work.read path).isNone

/-- Put `data` into the file at `path`, creating or truncating it; `none` when the
directory of the path cannot be used. -/
def storeFile (w : World) (path data : Bytes) : Option World :=
  match resolve w path with
  | .object n => w.objects.map (fun d => { w with objects := some (d.write n data) })
  | .commitRecord n => w.commits.map (fun d => { w with commits := some (d.write n data) })
  | .outside => some { w with work := w.work.write path data }

/-- `ioutil.WriteFile(path, content, 0644)`: whether it returned no error, and the file
system it leaves behind. It opens the file with `O_CREATE|O_TRUNC`, writes and closes;
when the write fails after the open, the truncated file stays with the bytes written so
far. -/
def writeFile (w : World) (path content : Bytes) : Bool × World :=
  if w.locked path then
    match w.torn path with
    | none => (false, w)
    | some k => (false, (storeFile w path (content.take k)).getD w)
  else
    match storeFile w path content with
    | none => (false, w)
    | some w1 => (true, w1)

/-- `ioutil.ReadDir(dir)` for the two store directories: the names, sorted; `none` is an
error. -/
def readDir (w : World) (dir : Bytes) : Option (List Bytes) :=
  if dir = objectsDir then w.objects.map Dir.listing
  else if dir = commitsDir then w.commits.map Dir.listing
  else none

/-! ## The commands -/

/-- The `log.Fatalf` call sites. -/
inductive Failure where
  | readFile
  | writeObject
  | readObjectsDir
  | readObject
  | writeCommit
  | readCommitsDir
  | readCommit
  deriving DecidableEq

/-- How the process ends: the command returns, `os.Exit(code)`, or `log.Fatalf`. -/
inductive Status where
  | ok
  | exit (code : Nat)
  | fatal (site : Failure)
  deriving DecidableEq

structure Result where
  world : World
  stdout : List Bytes
  status : Status

/-- The `for _, file := range files` loop of `add`. -/
def addLoop : List Bytes → World → Result
  | [], w => ⟨w, [], .ok⟩
  | file :: files, w =>
    match readFile w file with
    | none => ⟨w, [], .fatal .readFile⟩
    | some content =>
      let objectPath := getObjectPath content
      if statNotExist w objectPath then
        match writeFile w objectPath content with
        | (false, w1) => ⟨w1, [], .fatal .writeObject⟩
        | (true, w1) => addLoop files w1
      else addLoop files w

/-- `add` of the source. -/
def add (files : List Bytes) (w : World) : Result :=
  if files.length = 0 then ⟨w, [ascii "Nothing specified, nothing added.\n"], .ok⟩
  else addLoop files w

/-- The `for _, object := range objects` loop of `commit`, appending to `objectLines`. -/
def objectLinesLoop (w : World) : List Bytes → List Bytes → Option (List Bytes)
  | [], objectLines => some objectLines
  | name :: objects, objectLines =>
    match readFile w (filepathJoin objectsDir name) with
    | none => none
    | some content =>
      objectLinesLoop w objects (objectLines ++ [name ++ ascii " " ++ sha1sum content])

/-- `commit` of the source, at clock reading `now`. -/
def commit (now : Time) (args : List Bytes) (w : World) : Result :=
  if args.length = 0 then ⟨w, [ascii "Please provide a commit message.\n"], .exit 1⟩
  else
    let message := Join args (ascii " ")
    match readDir w objectsDir with
    | none => ⟨w, [], .fatal .readObjectsDir⟩
    | some objects =>
      match objectLinesLoop w objects [] with
      | none => ⟨w, [], .fatal .readObject⟩
      | some objectLines =>
        let commitContent :=
          ascii "tree " ++ sha1sum (Join objectLines (ascii "\n")) ++ ascii "\n\n" ++ message
            ++ ascii "\n"
        let commitPath := filepathJoin commitsDir now.Format
        match writeFile w commitPath commitContent with
        | (false, w1) => ⟨w1, [], .fatal .writeCommit⟩
        | (true, w1) => ⟨w1, [ascii "Created commit " ++ commitPath ++ ascii "\n"], .ok⟩

/-- The `for i := len(commits) - 1; i >= 0; i--` loop of `logCommand` over the names it
still has to visit, last name first. -/
def logLoop (w : World) : List Bytes → List Bytes → Result
  | [], out => ⟨w, out, .ok⟩
  | name :: rest, out =>
    match readFile w (filepathJoin commitsDir name) with
    | none => ⟨w, out, .fatal .readCommit⟩
    | some content => logLoop w rest (out ++ [ascii "\n" ++ TrimSpace content ++ ascii "\n\n"])

/-- `logCommand` of the source. -/
def logCommand (w : World) : Result :=
  match readDir w commitsDir with
  | none => ⟨w, [], .fatal .readCommitsDir⟩
  | some commits => logLoop w commits.reverse []

/-! ## Specification vocabulary -/

/-- The entries of a directory stored under `name`. -/
def Dir.under (d : Dir) (name : Bytes) : Dir := d.filter (fun e => decide (e.1 = name))

/-- A byte is one of `0`-`9`, `a`-`f`. -/
def isLowerHex (b : Byte) : Bool :=
  (decide (48 ≤ b.val) && decide (b.val ≤ 57)) || (decide (97 ≤ b.val) && decide (b.val ≤ 102))

/-- The world `w1` keeps everything of `w`: the same files outside the repository, the
same commit records, the same behaviour of the operating system, and every object of `w`
under its name with its content. -/
def World.Extends (w w1 : World) : Prop :=
  w1.work = w.work ∧ w1.commits = w.commits ∧ w1.locked = w.locked ∧
    (w1.torn = w.torn ∧ w1.unreachable = w.unreachable ∧ w1.aliasOf = w.aliasOf) ∧
    (w.objects = none → w1.objects = none) ∧
    ∀ d, w.objects = some d →
      ∃ d1, w1.objects = some d1 ∧ ∀ n c, d.read n = some c → d1.read n = some c

/-- The entries of a directory in the order of its listing. -/
def Dir.sorted (d : Dir) : Dir := d.listing.filterMap (fun n => (d.read n).map (fun c => (n, c)))

/-- The manifest line of an object: `<object name> <sha1sum(object content)>`. -/
def manifestLine (e : Bytes × Bytes) : Bytes := e.1 ++ ascii " " ++ sha1sum e.2

/-- The manifest of an object directory: one line per entry, in listing order. -/
def manifest (d : Dir) : List Bytes := d.sorted.map manifestLine

/-- The text up to the first newline. -/
def firstLine (s : Bytes) : Bytes := s.takeWhile (fun b => decide (b ≠ 10))

/-- The body `commit` formats for the object directory `d` and the message words. -/
def commitBody (d : Dir) (args : List Bytes) : Bytes :=
  ascii "tree " ++ sha1sum (Join (manifest d) (ascii "\n")) ++ ascii "\n\n"
    ++ Join args (ascii " ") ++ ascii "\n"

/-- The ASCII digit of `n < 10`. -/
def digit (n : Nat) : Byte := Fin.ofNat (48 + n)

/-- Two decimal digits: `MM`, `DD`, `hh`, `mm`, `ss`. -/
def pad2 (n : Nat) : Bytes := [digit (n / 10), digit (n % 10)]

/-- Four decimal digits: `YYYY`. -/
def pad4 (n : Nat) : Bytes :=
  [digit (n / 1000), digit (n / 100 % 10), digit (n / 10 % 10), digit (n % 10)]

/-- What `logCommand` prints for a commit record: `fmt.Printf("\n%s\n\n", ...)` of the
body with surrounding white space trimmed. -/
def logEntry (body : Bytes) : Bytes := ascii "\n" ++ TrimSpace body ++ ascii "\n\n"

/-- Commit identities in strictly descending order. -/
def Newer (a b : Bytes × Bytes) : Prop := strLt b.1 a.1 = true

/-! ## Concrete repositories and clock readings -/

/-- A freshly initialised repository next to two files. -/
def demoWorld : World :=
  ⟨[(ascii "a.txt", ascii "hello"), (ascii "b.txt", ascii "world")], some [], some [],
    fun _ => false, fun _ => none, false, fun _ => .outside⟩

/-- The repository after `add a.txt b.txt`. -/
def demoStored : World :=
  ⟨[(ascii "a.txt", ascii "hello"), (ascii "b.txt", ascii "world")],
    some [(sha1sum (ascii "hello"), ascii "hello"), (sha1sum (ascii "world"), ascii "world")],
    some [], fun _ => false, fun _ => none, false, fun _ => .outside⟩

/-- Two files next to a repository whose object directory cannot be searched. -/
def blockedWorld : World :=
  ⟨[(ascii "a.txt", ascii "hello"), (ascii "b.txt", ascii "world")], none, none,
    fun _ => false, fun _ => none, true, fun _ => .outside⟩

/-- A repository with one commit record, which the path `./.go-git/commits/first`
reaches as well. -/
def aliasWorld : World :=
  ⟨[], some [], some [(ascii "first", ascii "tree x\n\nfirst\n")],
    fun _ => false, fun _ => none, false,
    fun p => if p = ascii "./.go-git/commits/first" then .commitRecord (ascii "first")
      else .outside⟩

/-- A repository with one commit record. -/
def loggedWorld : World :=
  ⟨[], some [], some [(ascii "2024-01-01T12-00-00", ascii "tree x\n\nfirst\n")],
    fun _ => false, fun _ => none, false, fun _ => .outside⟩

def demoObjects : Dir :=
  [(sha1sum (ascii "hello"), ascii "hello"), (sha1sum (ascii "world"), ascii "world")]

/-- Clock reading 2024-01-01 12:00:00.1 -/
def demoT1 : Time := ⟨2024, 1, 1, 12, 0, 0, 100000000⟩
/-- Clock reading 2024-01-01 12:00:00.9, in the same second. -/
def demoT2 : Time := ⟨2024, 1, 1, 12, 0, 0, 900000000⟩
/-- Clock reading 2024-01-01 12:00:01.0 -/
def demoT3 : Time := ⟨2024, 1, 1, 12, 0, 1, 0⟩
/-- Clock reading 2024-01-01 12:00:02.0 -/
def demoT4 : Time := ⟨2024, 1, 1, 12, 0, 2, 0⟩
/-- Clock reading 9999-12-31 23:59:59 -/
def lastFourDigit : Time := ⟨9999, 12, 31, 23, 59, 59, 0⟩
/-- Clock reading 10000-01-01 00:00:00, one second later. -/
def firstFiveDigit : Time := ⟨10000, 1, 1, 0, 0, 0, 0⟩

/-! # Theorems -/

/-! ## Directories -/

theorem Dir.read_write_same (d : Dir) (n c : Bytes) : (d.write n c).read n = some c := by
  induction d with
  | nil => simp [Dir.write, Dir.read]
  | cons e d ih =>
    obtain ⟨m, x⟩ := e
    by_cases h : m = n
    · simp [Dir.write, Dir.read, h]
    · simp [Dir.write, Dir.read, h, ih]

theorem Dir.read_write_ne (d : Dir) (n m c : Bytes) (h : m ≠ n) :
    (d.write n c).read m = d.read m := by
  induction d with
  | nil => simp [Dir.write, Dir.read, h.symm]
  | cons e d ih =>
    obtain ⟨k, x⟩ := e
    by_cases hk : k = n
    · subst hk
      simp [Dir.write, Dir.read, Ne.symm h]
    · by_cases hm : k = m
      · subst hm
        simp [Dir.write, Dir.read, hk]
      · simp [Dir.write, Dir.read, hk, hm, ih]

theorem Dir.write_absent (d : Dir) (n c : Bytes) (h : d.read n = none) :
    d.write n c = d ++ [(n, c)] := by
  induction d with
  | nil => rfl
  | cons e d ih =>
    obtain ⟨k, x⟩ := e
    by_cases hk : k = n
    · simp [Dir.read, hk] at h
    · simp [Dir.read, hk] at h
      simp [Dir.write, hk, ih h]

theorem Dir.names_write_present (d : Dir) (n c y : Bytes) (h : d.read n = some y) :
    (d.write n c).names = d.names := by
  induction d with
  | nil => simp [Dir.read] at h
  | cons e d ih =>
    obtain ⟨k, x⟩ := e
    by_cases hk : k = n
    · simp [Dir.write, Dir.names, hk]
    · simp [Dir.read, hk] at h
      have := ih h
      simp [Dir.names] at this
      simp [Dir.write, Dir.names, hk, this]

theorem Dir.read_eq_none_iff (d : Dir) (n : Bytes) : d.read n = none ↔ n ∉ d.names := by
  induction d with
  | nil => simp [Dir.read, Dir.names]
  | cons e d ih =>
    obtain ⟨k, x⟩ := e
    by_cases hk : k = n
    · simp [Dir.read, Dir.names, hk]
    · have hk2 : ¬ n = k := fun h => hk h.symm
      simp [Dir.names] at ih
      simp [Dir.read, Dir.names, hk, hk2, ih]

theorem Dir.read_of_mem (d : Dir) (hd : d.WF) (e : Bytes × Bytes) (he : e ∈ d) :
    d.read e.1 = some e.2 := by
  induction d with
  | nil => simp at he
  | cons a d ih =>
    obtain ⟨k, x⟩ := a
    simp only [Dir.WF, Dir.names, List.map_cons, List.nodup_cons] at hd
    rcases List.mem_cons.1 he with h | h
    · subst h; simp [Dir.read]
    · have hne : k ≠ e.1 := by
        intro hk
        exact hd.1 (hk ▸ List.mem_map_of_mem Prod.fst h)
      simp [Dir.read, hne]
      exact ih hd.2 h

theorem Dir.mem_of_read (d : Dir) (n c : Bytes) (h : d.read n = some c) : (n, c) ∈ d := by
  induction d with
  | nil => simp [Dir.read] at h
  | cons a d ih =>
    obtain ⟨k, x⟩ := a
    by_cases hk : k = n
    · simp [Dir.read, hk] at h
      simp [hk, h]
    · simp [Dir.read, hk] at h
      exact List.mem_cons_of_mem _ (ih h)

theorem Dir.write_WF (d : Dir) (n c : Bytes) (hd : d.WF) : (d.write n c).WF := by
  cases h : d.read n with
  | none =>
    rw [Dir.write_absent d n c h]
    have hn := (Dir.read_eq_none_iff d n).1 h
    simp only [Dir.WF, Dir.names, List.map_append, List.map_cons, List.map_nil] at hd ⊢
    rw [List.nodup_append]
    refine ⟨hd, by simp, ?_⟩
    intro a ha hb
    simp at hb
    subst hb
    exact hn ha
  | some y =>
    unfold Dir.WF
    rw [Dir.names_write_present d n c y h]
    exact hd

theorem Dir.length_write_present (d : Dir) (n c y : Bytes) (h : d.read n = some y) :
    (d.write n c).length = d.length := by
  have := congrArg List.length (Dir.names_write_present d n c y h)
  simpa [Dir.names] using this

/-- In a well-formed directory a name that can be read has exactly one entry. -/
theorem Dir.under_of_read (d : Dir) (hd : d.WF) (n c : Bytes) (h : d.read n = some c) :
    d.under n = [(n, c)] := by
  induction d with
  | nil => simp [Dir.read] at h
  | cons a d ih =>
    obtain ⟨k, x⟩ := a
    simp only [Dir.WF, Dir.names, List.map_cons, List.nodup_cons] at hd
    by_cases hk : k = n
    · subst hk
      simp [Dir.read] at h
      subst h
      have : Dir.under d k = [] := by
        simp only [Dir.under, List.filter_eq_nil_iff]
        intro e he
        simp
        intro hek
        exact hd.1 (hek ▸ List.mem_map_of_mem Prod.fst he)
      simp [Dir.under] at this ⊢
      exact this
    · simp [Dir.read, hk] at h
      have := ih hd.2 h
      simp [Dir.under, hk] at this ⊢
      exact this

/-! ## Paths -/

theorem stripLeading_append (p s : Bytes) : stripLeading p (p ++ s) = some s := by
  induction p with
  | nil => cases s <;> rfl
  | cons a p ih => simp [stripLeading, ih]

theorem resolve_object (w : World) (n : Bytes) :
    resolve w (filepathJoin objectsDir n) = .object n := by
  unfold resolve filepathJoin
  rw [stripLeading_append]

theorem stripLeading_objects_commits (n : Bytes) :
    stripLeading (objectsDir ++ ascii "/") (commitsDir ++ ascii "/" ++ n) = none := by
  rfl

theorem resolve_commit (w : World) (n : Bytes) :
    resolve w (filepathJoin commitsDir n) = .commitRecord n := by
  unfold resolve filepathJoin
  rw [stripLeading_objects_commits, stripLeading_append]

theorem readFile_object (w : World) (n : Bytes) :
    readFile w (filepathJoin objectsDir n) = w.objects.bind (fun d => d.read n) := by
  simp [readFile, resolve_object]

theorem readFile_commit (w : World) (n : Bytes) :
    readFile w (filepathJoin commitsDir n) = w.commits.bind (fun d => d.read n) := by
  simp [readFile, resolve_commit]

/-! ## The digest is 40 lowercase hexadecimal digits -/

theorem hexDigit_lower (n : Nat) (h : n < 16) : isLowerHex (hexDigit n) = true := by
  interval_cases n <;> decide

theorem hexBytes_length (l : List Nat) : (hexBytes l).length = 2 * l.length := by
  induction l with
  | nil => rfl
  | cons b l ih => simp [hexBytes, ih]; omega

theorem hexBytes_lower (l : List Nat) (h : ∀ b ∈ l, b < 256) :
    ∀ c ∈ hexBytes l, isLowerHex c = true := by
  induction l with
  | nil => simp [hexBytes]
  | cons b l ih =>
    intro c hc
    have hb : b < 256 := h b (List.mem_cons_self _ _)
    simp only [hexBytes, List.mem_cons] at hc
    rcases hc with hc | hc | hc
    · subst hc; exact hexDigit_lower _ (by omega)
    · subst hc; exact hexDigit_lower _ (by omega)
    · exact ih (fun b hb => h b (List.mem_cons_of_mem _ hb)) c hc

theorem sha1Sum_length (x : Bytes) : (sha1Sum x).length = 20 := by
  simp [sha1Sum, be32]

theorem sha1Sum_lt (x : Bytes) : ∀ b ∈ sha1Sum x, b < 256 := by
  intro b hb
  simp only [sha1Sum, be32, List.mem_append, List.mem_cons, List.mem_singleton,
    List.not_mem_nil, or_false] at hb
  rcases hb with (((h | h) | h) | h) | h <;> rcases h with h | h | h | h <;>
    (subst h; exact Nat.mod_lt _ (by decide))

theorem sha1sum_length (x : Bytes) : (sha1sum x).length = 40 := by
  simp [sha1sum, hexBytes_length, sha1Sum_length]

theorem sha1sum_lower (x : Bytes) : ∀ c ∈ sha1sum x, isLowerHex c = true :=
  hexBytes_lower _ (sha1Sum_lt x)

/-! ## One step of `add` -/

theorem statNotExist_object (w : World) (c : Bytes) :
    statNotExist w (getObjectPath c) = statMissing w w.objects (sha1sum c) := by
  simp [statNotExist, getObjectPath, resolve_object]

theorem statNotExist_some (w : World) (d : Dir) (c : Bytes) (hd : w.objects = some d) :
    statNotExist w (getObjectPath c) = (d.read (sha1sum c)).isNone := by
  rw [statNotExist_object, hd]; rfl

theorem storeFile_object (w : World) (c data : Bytes) :
    storeFile w (getObjectPath c) data =
      w.objects.map (fun d => { w with objects := some (d.write (sha1sum c) data) }) := by
  simp [storeFile, getObjectPath, resolve_object]

theorem writeFile_object_none (w : World) (c : Bytes) (hd : w.objects = none) :
    writeFile w (getObjectPath c) c = (false, w) := by
  unfold writeFile
  simp only [storeFile_object, hd]
  cases w.locked (getObjectPath c) <;> cases w.torn (getObjectPath c) <;> simp

theorem writeFile_object_free (w : World) (d : Dir) (c : Bytes) (hd : w.objects = some d)
    (hl : w.locked (getObjectPath c) = false) :
    writeFile w (getObjectPath c) c
      = (true, { w with objects := some (d.write (sha1sum c) c) }) := by
  unfold writeFile
  rw [storeFile_object, hd, hl]
  simp

theorem writeFile_object_refused (w : World) (c : Bytes)
    (hl : w.locked (getObjectPath c) = true) (ht : w.torn (getObjectPath c) = none) :
    writeFile w (getObjectPath c) c = (false, w) := by
  unfold writeFile
  rw [hl, ht]
  simp

theorem writeFile_object_torn (w : World) (d : Dir) (c : Bytes) (k : Nat)
    (hd : w.objects = some d)
    (hl : w.locked (getObjectPath c) = true) (ht : w.torn (getObjectPath c) = some k) :
    writeFile w (getObjectPath c) c
      = (false, { w with objects := some (d.write (sha1sum c) (c.take k)) }) := by
  unfold writeFile
  simp only [storeFile_object, hd, hl, ht]
  simp

theorem extends_refl (w : World) : w.Extends w :=
  ⟨rfl, rfl, rfl, ⟨rfl, rfl, rfl⟩, fun h => h, fun d hd => ⟨d, hd, fun _ _ h => h⟩⟩

theorem extends_trans {a b c : World} (h1 : a.Extends b) (h2 : b.Extends c) :
    a.Extends c := by
  obtain ⟨hw1, hc1, hl1, ⟨ht1, hu1, ha1⟩, hn1, ho1⟩ := h1
  obtain ⟨hw2, hc2, hl2, ⟨ht2, hu2, ha2⟩, hn2, ho2⟩ := h2
  refine ⟨hw2.trans hw1, hc2.trans hc1, hl2.trans hl1,
    ⟨ht2.trans ht1, hu2.trans hu1, ha2.trans ha1⟩, fun h => hn2 (hn1 h), ?_⟩
  intro d hd
  obtain ⟨d1, hd1, k1⟩ := ho1 d hd
  obtain ⟨d2, hd2, k2⟩ := ho2 d1 hd1
  exact ⟨d2, hd2, fun n c h => k2 n c (k1 n c h)⟩

/-- Putting data under a name that is not in the object directory keeps every
existing file. -/
theorem extends_new_object (w : World) (d : Dir) (n data : Bytes) (hd : w.objects = some d)
    (hn : d.read n = none) : w.Extends { w with objects := some (d.write n data) } := by
  refine ⟨rfl, rfl, rfl, ⟨rfl, rfl, rfl⟩, ?_, ?_⟩
  · intro h; rw [hd] at h; cases h
  · intro d0 hd0
    rw [hd] at hd0
    cases hd0
    refine ⟨_, rfl, ?_⟩
    intro m x hx
    have hne : m ≠ n := by
      intro h; subst h; rw [hn] at hx; cases hx
    rw [Dir.read_write_ne _ _ _ _ hne]; exact hx

/-- The outcomes of the write of a new object: done, refused, or torn. -/
theorem writeFile_object_cases (w : World) (d : Dir) (c : Bytes) (hd : w.objects = some d) :
    (w.locked (getObjectPath c) = false ∧
      writeFile w (getObjectPath c) c
        = (true, { w with objects := some (d.write (sha1sum c) c) })) ∨
    (w.locked (getObjectPath c) = true ∧ w.torn (getObjectPath c) = none ∧
      writeFile w (getObjectPath c) c = (false, w)) ∨
    (∃ k, w.locked (getObjectPath c) = true ∧ w.torn (getObjectPath c) = some k ∧
      writeFile w (getObjectPath c) c
        = (false, { w with objects := some (d.write (sha1sum c) (c.take k)) })) := by
  cases hl : w.locked (getObjectPath c) with
  | false => exact Or.inl ⟨rfl, writeFile_object_free w d c hd hl⟩
  | true =>
    cases ht : w.torn (getObjectPath c) with
    | none => exact Or.inr (Or.inl ⟨rfl, rfl, writeFile_object_refused w c hl ht⟩)
    | some k => exact Or.inr (Or.inr ⟨k, rfl, rfl, writeFile_object_torn w d c k hd hl ht⟩)

/-- Writing a new object keeps every existing file, however the write ends. -/
theorem writeFile_object_extends (w w1 : World) (c : Bytes) (b : Bool)
    (hs : statNotExist w (getObjectPath c) = true)
    (hw : writeFile w (getObjectPath c) c = (b, w1)) : w.Extends w1 := by
  cases hd : w.objects with
  | none =>
    rw [writeFile_object_none w c hd] at hw
    cases hw
    exact extends_refl w
  | some d =>
    rw [statNotExist_some w d c hd] at hs
    have hn : d.read (sha1sum c) = none := by simpa using hs
    rcases writeFile_object_cases w d c hd with ⟨_, h⟩ | ⟨_, _, h⟩ | ⟨k, _, _, h⟩ <;>
      (rw [h] at hw; cases hw)
    · exact extends_new_object w d _ _ hd hn
    · exact extends_refl w
    · exact extends_new_object w d _ _ hd hn

theorem addLoop_nil (w : World) : addLoop [] w = ⟨w, [], .ok⟩ := rfl

theorem addLoop_read_none (w : World) (file : Bytes) (files : List Bytes)
    (h : readFile w file = none) : addLoop (file :: files) w = ⟨w, [], .fatal .readFile⟩ := by
  simp [addLoop, h]

theorem addLoop_exists (w : World) (file c : Bytes) (files : List Bytes)
    (h : readFile w file = some c) (hs : statNotExist w (getObjectPath c) = false) :
    addLoop (file :: files) w = addLoop files w := by
  simp [addLoop, h, hs]

theorem addLoop_write_fail (w w1 : World) (file c : Bytes) (files : List Bytes)
    (h : readFile w file = some c) (hs : statNotExist w (getObjectPath c) = true)
    (hw : writeFile w (getObjectPath c) c = (false, w1)) :
    addLoop (file :: files) w = ⟨w1, [], .fatal .writeObject⟩ := by
  simp [addLoop, h, hs, hw]

theorem addLoop_write_done (w w1 : World) (file c : Bytes) (files : List Bytes)
    (h : readFile w file = some c) (hs : statNotExist w (getObjectPath c) = true)
    (hw : writeFile w (getObjectPath c) c = (true, w1)) :
    addLoop (file :: files) w = addLoop files w1 := by
  simp [addLoop, h, hs, hw]

/-- The loop of `add` only ever adds objects. -/
theorem addLoop_extends (files : List Bytes) (w : World) :
    w.Extends (addLoop files w).world := by
  induction files generalizing w with
  | nil => exact extends_refl w
  | cons file files ih =>
    cases hr : readFile w file with
    | none => rw [addLoop_read_none w file files hr]; exact extends_refl w
    | some c =>
      cases hs : statNotExist w (getObjectPath c) with
      | false => rw [addLoop_exists w file c files hr hs]; exact ih w
      | true =>
        cases hw : writeFile w (getObjectPath c) c with
        | mk b w1 =>
          have hext := writeFile_object_extends w w1 c b hs hw
          cases b with
          | false => rw [addLoop_write_fail w w1 file c files hr hs hw]; exact hext
          | true =>
            rw [addLoop_write_done w w1 file c files hr hs hw]
            exact extends_trans hext (ih w1)

theorem add_world (files : List Bytes) (w : World) :
    (add files w).world = (addLoop files w).world := by
  cases files <;> simp [add, addLoop]

theorem add_status (files : List Bytes) (w : World) :
    (add files w).status = (addLoop files w).status := by
  cases files <;> simp [add, addLoop]

theorem add_extends (files : List Bytes) (w : World) : w.Extends (add files w).world := by
  rw [add_world]; exact addLoop_extends files w

theorem statNotExist_present (w : World) (d : Dir) (c y : Bytes) (hd : w.objects = some d)
    (hy : d.read (sha1sum c) = some y) : statNotExist w (getObjectPath c) = false := by
  rw [statNotExist_some w d c hd, hy]; rfl

theorem statNotExist_absent (w : World) (d : Dir) (c : Bytes) (hd : w.objects = some d)
    (hy : d.read (sha1sum c) = none) : statNotExist w (getObjectPath c) = true := by
  rw [statNotExist_some w d c hd, hy]; rfl

/-- C1 (content addressing). Let the object directory exist, let `file` be readable with
content `x` (any byte sequence, the empty one included), let every object already stored
under `sha1sum x` have content `x`, and let the operating system not refuse the object's
path when the object is new. Then `add` of that one file succeeds, and after `add` of
that file followed by any further files the object store holds an object named exactly
`sha1sum x` with content exactly `x`; the name is 40 lowercase hexadecimal digits. -/
theorem add_content_addressed (w : World) (d : Dir) (file x : Bytes) (rest : List Bytes)
    (hd : w.objects = some d)
    (hread : readFile w file = some x)
    (hpre : ∀ y, d.read (sha1sum x) = some y → y = x)
    (hlock : d.read (sha1sum x) = none → w.locked (getObjectPath x) = false) :
    (add [file] w).status = .ok ∧
      (∃ d1, (add (file :: rest) w).world.objects = some d1 ∧
        d1.read (sha1sum x) = some x) ∧
      (sha1sum x).length = 40 ∧ ∀ b ∈ sha1sum x, isLowerHex b = true := by
  refine ⟨?_, ?_, sha1sum_length x, sha1sum_lower x⟩
  · rw [add_status]
    cases hr : d.read (sha1sum x) with
    | some y =>
      rw [addLoop_exists w file x [] hread (statNotExist_present w d x y hd hr)]; rfl
    | none =>
      rw [addLoop_write_done w _ file x [] hread (statNotExist_absent w d x hd hr)
        (writeFile_object_free w d x hd (hlock hr))]
      rfl
  · rw [add_world]
    cases hr : d.read (sha1sum x) with
    | some y =>
      have hy := hpre y hr
      subst hy
      obtain ⟨_, _, _, _, _, ho⟩ := addLoop_extends (file :: rest) w
      obtain ⟨d1, hd1, k⟩ := ho d hd
      exact ⟨d1, hd1, k _ _ hr⟩
    | none =>
      rw [addLoop_write_done w _ file x rest hread (statNotExist_absent w d x hd hr)
        (writeFile_object_free w d x hd (hlock hr))]
      obtain ⟨_, _, _, _, _, ho⟩ :=
        addLoop_extends rest { w with objects := some (d.write (sha1sum x) x) }
      obtain ⟨d1, hd1, k⟩ := ho _ rfl
      exact ⟨d1, hd1, k _ _ (Dir.read_write_same d _ x)⟩

/-- After a successful `add` of a single readable file into an object directory its
digest names an object. -/
theorem add_single_ok (w : World) (d : Dir) (f x : Bytes) (hd : w.objects = some d)
    (hf : readFile w f = some x) (hok : (add [f] w).status = .ok) :
    ∃ d1 y, (add [f] w).world.objects = some d1 ∧ d1.read (sha1sum x) = some y ∧
      (d.WF → d1.WF) := by
  rw [add_status] at hok
  rw [add_world]
  cases hr : d.read (sha1sum x) with
  | some y =>
    rw [addLoop_exists w f x [] hf (statNotExist_present w d x y hd hr), addLoop_nil]
    exact ⟨d, y, hd, hr, fun h => h⟩
  | none =>
    have hs := statNotExist_absent w d x hd hr
    rcases writeFile_object_cases w d x hd with ⟨_, h⟩ | ⟨_, _, h⟩ | ⟨k, _, _, h⟩
    · rw [addLoop_write_done w _ f x [] hf hs h, addLoop_nil]
      exact ⟨_, x, rfl, Dir.read_write_same d _ x, fun hwf => Dir.write_WF d _ x hwf⟩
    · rw [addLoop_write_fail w _ f x [] hf hs h] at hok; cases hok
    · rw [addLoop_write_fail w _ f x [] hf hs h] at hok; cases hok

/-- Adding content whose digest already names an object changes nothing. -/
theorem add_single_present (w : World) (d : Dir) (f x y : Bytes) (hd : w.objects = some d)
    (hf : readFile w f = some x) (hy : d.read (sha1sum x) = some y) :
    (add [f] w).status = .ok ∧ (add [f] w).world = w := by
  rw [add_status, add_world,
    addLoop_exists w f x [] hf (statNotExist_present w d x y hd hy), addLoop_nil]
  exact ⟨rfl, rfl⟩

/-- C2 (dedup). Let the object directory be well formed, let `add` of a file with content
`x` succeed, and let `g` be a file that then has content `x`. Adding `g` succeeds and
leaves the whole file system, so the object store, exactly as the first `add` left it:
the same number of objects, exactly one object under `sha1sum x`; and an object that was
stored under `sha1sum x` before the first `add`, whatever its bytes, is not overwritten. -/
theorem add_twice_idempotent (w : World) (d : Dir) (f g x : Bytes)
    (hd : w.objects = some d) (hwf : d.WF)
    (hf : readFile w f = some x)
    (hok : (add [f] w).status = .ok)
    (hg : readFile (add [f] w).world g = some x) :
    (add [g] (add [f] w).world).status = .ok ∧
      (add [g] (add [f] w).world).world = (add [f] w).world ∧
      (∃ d1 d2 y, (add [f] w).world.objects = some d1 ∧
        (add [g] (add [f] w).world).world.objects = some d2 ∧ d2 = d1 ∧
        d2.length = d1.length ∧ d2.under (sha1sum x) = [(sha1sum x, y)]) ∧
      (∀ y, d.read (sha1sum x) = some y →
        (add [f] w).world.objects = some d ∧
        (add [g] (add [f] w).world).world.objects = some d) := by
  obtain ⟨d1, y, hd1, hy, hwf1⟩ := add_single_ok w d f x hd hf hok
  have h2 := add_single_present (add [f] w).world d1 g x y hd1 hg hy
  refine ⟨h2.1, h2.2, ⟨d1, d1, y, hd1, ?_, rfl, rfl, ?_⟩, ?_⟩
  · rw [h2.2]; exact hd1
  · exact Dir.under_of_read d1 (hwf1 hwf) _ y hy
  · intro y0 hy0
    have h1 := add_single_present w d f x y0 hd hf hy0
    have e1 : (add [f] w).world.objects = some d := by rw [h1.2]; exact hd
    refine ⟨e1, ?_⟩
    rw [h2.2]; exact e1

theorem strLt_cons (a b : Byte) (as bs : Bytes) :
    strLt (a :: as) (b :: bs) = true ↔ a < b ∨ (a = b ∧ strLt as bs = true) := by
  simp [strLt]

theorem strLt_irrefl (a : Bytes) : strLt a a = false := by
  induction a with
  | nil => rfl
  | cons x a ih => simp [strLt, ih]

theorem strLt_trans (a b c : Bytes) (h1 : strLt a b = true) (h2 : strLt b c = true) :
    strLt a c = true := by
  induction a generalizing b c with
  | nil =>
    cases b with
    | nil => simp [strLt] at h1
    | cons y b =>
      cases c with
      | nil => simp [strLt] at h2
      | cons z c => simp [strLt]
  | cons x a ih =>
    cases b with
    | nil => simp [strLt] at h1
    | cons y b =>
      cases c with
      | nil => simp [strLt] at h2
      | cons z c =>
        rw [strLt_cons] at h1 h2 ⊢
        rcases h1 with h1 | ⟨e1, h1⟩
        · rcases h2 with h2 | ⟨e2, h2⟩
          · exact Or.inl (lt_trans h1 h2)
          · exact Or.inl (e2 ▸ h1)
        · rcases h2 with h2 | ⟨e2, h2⟩
          · exact Or.inl (e1 ▸ h2)
          · exact Or.inr ⟨e1.trans e2, ih b c h1 h2⟩

theorem strLt_total (a b : Bytes) : strLt a b = true ∨ a = b ∨ strLt b a = true := by
  induction a generalizing b with
  | nil =>
    cases b with
    | nil => exact Or.inr (Or.inl rfl)
    | cons y b => exact Or.inl rfl
  | cons x a ih =>
    cases b with
    | nil => exact Or.inr (Or.inr rfl)
    | cons y b =>
      rw [strLt_cons, strLt_cons]
      rcases lt_trichotomy x y with h | h | h
      · exact Or.inl (Or.inl h)
      · subst h
        rcases ih b with h | h | h
        · exact Or.inl (Or.inr ⟨rfl, h⟩)
        · exact Or.inr (Or.inl (by rw [h]))
        · exact Or.inr (Or.inr (Or.inr ⟨rfl, h⟩))
      · exact Or.inr (Or.inr (Or.inl h))

theorem strLt_asymm (a b : Bytes) (h : strLt a b = true) : strLt b a = false := by
  cases hb : strLt b a with
  | false => rfl
  | true =>
    have := strLt_trans a b a h hb
    rw [strLt_irrefl] at this
    cases this

theorem strLt_ne (a b : Bytes) (h : strLt a b = true) : a ≠ b := by
  intro e
  subst e
  rw [strLt_irrefl] at h
  cases h

theorem nameLe_total (a b : Bytes) : NameLe a b ∨ NameLe b a := by
  unfold NameLe
  cases h : strLt b a with
  | false => exact Or.inl rfl
  | true => exact Or.inr (strLt_asymm b a h)

theorem nameLe_trans (a b c : Bytes) (hab : NameLe a b) (hbc : NameLe b c) : NameLe a c := by
  unfold NameLe at *
  cases h : strLt c a with
  | false => rfl
  | true =>
    rcases strLt_total a b with h1 | h1 | h1
    · rw [strLt_trans c a b h h1] at hbc; cases hbc
    · subst h1; rw [h] at hbc; cases hbc
    · rw [h1] at hab; cases hab

theorem nameLe_lt_of_ne {a b : Bytes} (h : NameLe a b) (hne : a ≠ b) : strLt a b = true := by
  unfold NameLe at h
  rcases strLt_total a b with h1 | h1 | h1
  · exact h1
  · exact absurd h1 hne
  · rw [h1] at h; cases h

theorem Dir.listing_perm (d : Dir) : d.listing.Perm d.names :=
  List.perm_insertionSort NameLe d.names

theorem Dir.listing_sorted (d : Dir) : d.listing.Sorted NameLe := by
  haveI : IsTotal Bytes NameLe := ⟨nameLe_total⟩
  haveI : IsTrans Bytes NameLe := ⟨nameLe_trans⟩
  exact List.sorted_insertionSort NameLe d.names

/-- The listing of a well-formed directory is strictly increasing. -/
theorem Dir.listing_strict (d : Dir) (hd : d.WF) :
    d.listing.Pairwise (fun a b => strLt a b = true) := by
  have hn : d.listing.Nodup := (Dir.listing_perm d).nodup_iff.2 hd
  have hs : d.listing.Pairwise NameLe := Dir.listing_sorted d
  exact (hs.and hn).imp (fun h => nameLe_lt_of_ne h.1 h.2)

theorem readDir_objects (w : World) : readDir w objectsDir = w.objects.map Dir.listing := by
  simp [readDir]

theorem commitsDir_ne_objectsDir : commitsDir ≠ objectsDir := by decide

theorem readDir_commits (w : World) : readDir w commitsDir = w.commits.map Dir.listing := by
  simp [readDir, commitsDir_ne_objectsDir]

theorem Dir.filterMap_names (d : Dir) (hd : d.WF) :
    d.names.filterMap (fun n => (d.read n).map (fun c => (n, c))) = d := by
  unfold Dir.names
  rw [List.filterMap_map]
  have : ∀ e ∈ d, ((fun n => (d.read n).map (fun c => (n, c))) ∘ Prod.fst) e = some e := by
    intro e he
    simp [Dir.read_of_mem d hd e he]
  rw [List.filterMap_congr this]
  simp

theorem Dir.sorted_perm (d : Dir) (hd : d.WF) : d.sorted.Perm d := by
  have h := (Dir.listing_perm d).filterMap (fun n => (d.read n).map (fun c => (n, c)))
  rw [Dir.filterMap_names d hd] at h
  exact h

theorem Dir.sorted_names (d : Dir) : d.sorted.names = d.listing := by
  unfold Dir.sorted Dir.names
  rw [List.map_filterMap]
  have : ∀ n ∈ d.listing,
      (fun n => Option.map Prod.fst ((d.read n).map (fun c => (n, c)))) n = some n := by
    intro n hn
    have hm : n ∈ d.names := (Dir.listing_perm d).subset hn
    cases hr : d.read n with
    | none => exact absurd hm ((Dir.read_eq_none_iff d n).1 hr)
    | some c => simp [hr]
  rw [List.filterMap_congr this]
  simp

theorem storeFile_commit (w : World) (n data : Bytes) :
    storeFile w (filepathJoin commitsDir n) data =
      w.commits.map (fun d => { w with commits := some (d.write n data) }) := by
  simp [storeFile, resolve_commit]

theorem writeFile_commit_free (w : World) (cs : Dir) (n c : Bytes) (hc : w.commits = some cs)
    (hl : w.locked (filepathJoin commitsDir n) = false) :
    writeFile w (filepathJoin commitsDir n) c
      = (true, { w with commits := some (cs.write n c) }) := by
  unfold writeFile
  simp only [storeFile_commit, hc, hl]
  simp

/-- A write of a commit record that fails, and any write of one, leaves the objects,
the files outside the store and the refusals as they are. -/
theorem writeFile_commit_keeps (w : World) (n c : Bytes) :
    (writeFile w (filepathJoin commitsDir n) c).2.objects = w.objects ∧
      (writeFile w (filepathJoin commitsDir n) c).2.work = w.work ∧
      (writeFile w (filepathJoin commitsDir n) c).2.locked = w.locked ∧
      ((writeFile w (filepathJoin commitsDir n) c).1 = true →
        w.locked (filepathJoin commitsDir n) = false ∧ ∃ cs, w.commits = some cs) := by
  unfold writeFile
  simp only [storeFile_commit]
  cases w.locked (filepathJoin commitsDir n) <;> cases w.torn (filepathJoin commitsDir n) <;>
    cases hc : w.commits <;> simp

theorem objectLinesLoop_eq (w : World) (d : Dir) (hd : w.objects = some d)
    (names acc : List Bytes) (h : ∀ n ∈ names, n ∈ d.names) :
    objectLinesLoop w names acc = some (acc ++
      (names.filterMap (fun n => (d.read n).map (fun c => (n, c)))).map manifestLine) := by
  induction names generalizing acc with
  | nil => simp [objectLinesLoop]
  | cons n names ih =>
    have hn : n ∈ d.names := h n (List.mem_cons_self _ _)
    cases hr : d.read n with
    | none => exact absurd hn ((Dir.read_eq_none_iff d n).1 hr)
    | some c =>
      have hf : readFile w (filepathJoin objectsDir n) = some c := by
        rw [readFile_object, hd]; exact hr
      simp only [objectLinesLoop, hf]
      rw [ih _ (fun m hm => h m (List.mem_cons_of_mem _ hm))]
      simp [hr, manifestLine]

theorem objectLinesLoop_listing (w : World) (d : Dir) (hd : w.objects = some d) :
    objectLinesLoop w d.listing [] = some (manifest d) := by
  rw [objectLinesLoop_eq w d hd d.listing [] (fun n hn => (Dir.listing_perm d).subset hn)]
  simp [manifest, Dir.sorted]

/-- A `commit` with message words over an object directory goes as its write goes. -/
theorem commit_unfold (now : Time) (args : List Bytes) (w : World) (d : Dir)
    (hargs : args ≠ []) (hd : w.objects = some d) :
    commit now args w =
      match writeFile w (filepathJoin commitsDir now.Format) (commitBody d args) with
      | (false, w1) => ⟨w1, [], .fatal .writeCommit⟩
      | (true, w1) =>
        ⟨w1, [ascii "Created commit " ++ filepathJoin commitsDir now.Format ++ ascii "\n"],
          .ok⟩ := by
  have hlen : ¬ args.length = 0 := by
    intro h; exact hargs (List.length_eq_zero.1 h)
  simp only [commit, hlen, if_false, readDir_objects, hd, Option.map_some',
    objectLinesLoop_listing w d hd, commitBody]

/-- What a `commit` whose write is not refused does. -/
theorem commit_eq (now : Time) (args : List Bytes) (w : World) (d cs : Dir)
    (hargs : args ≠ []) (hd : w.objects = some d) (hc : w.commits = some cs)
    (hl : w.locked (filepathJoin commitsDir now.Format) = false) :
    commit now args w =
      ⟨{ w with commits := some (cs.write now.Format (commitBody d args)) },
        [ascii "Created commit " ++ filepathJoin commitsDir now.Format ++ ascii "\n"], .ok⟩ := by
  rw [commit_unfold now args w d hargs hd,
    writeFile_commit_free w cs now.Format (commitBody d args) hc hl]

theorem commit_nil (now : Time) (w : World) :
    commit now [] w = ⟨w, [ascii "Please provide a commit message.\n"], .exit 1⟩ := by
  simp [commit]

/-- A `commit` either does not end with status `ok`, and then leaves the objects, the
files outside the store and the refusals as they are, or it wrote its record. -/
theorem commit_cases (now : Time) (args : List Bytes) (w : World) :
    ((commit now args w).status ≠ .ok ∧ (commit now args w).world.objects = w.objects ∧
        (commit now args w).world.work = w.work ∧
        (commit now args w).world.locked = w.locked) ∨
      (args ≠ [] ∧ ∃ d cs, w.objects = some d ∧ w.commits = some cs ∧
        w.locked (filepathJoin commitsDir now.Format) = false) := by
  by_cases hargs : args = []
  · subst hargs; rw [commit_nil]; exact Or.inl ⟨by simp, rfl, rfl, rfl⟩
  · have hlen : ¬ args.length = 0 := by
      intro h; exact hargs (List.length_eq_zero.1 h)
    cases hd : w.objects with
    | none =>
      left
      simp [commit, hlen, readDir_objects, hd]
    | some d =>
      have hk := writeFile_commit_keeps w now.Format (commitBody d args)
      rw [commit_unfold now args w d hargs hd]
      cases hw : writeFile w (filepathJoin commitsDir now.Format) (commitBody d args) with
      | mk b w1 =>
        rw [hw] at hk
        cases b with
        | false =>
          left
          exact ⟨by simp, hk.1.trans hd, hk.2.1, hk.2.2.1⟩
        | true =>
          right
          obtain ⟨hl, cs, hc⟩ := hk.2.2.2 rfl
          exact ⟨hargs, d, cs, rfl, hc, hl⟩

theorem commit_ok (now : Time) (args : List Bytes) (w : World)
    (h : (commit now args w).status = .ok) :
    args ≠ [] ∧ ∃ d cs, w.objects = some d ∧ w.commits = some cs ∧
      w.locked (filepathJoin commitsDir now.Format) = false := by
  rcases commit_cases now args w with h1 | h1
  · exact absurd h h1.1
  · exact h1

theorem commit_keeps (now : Time) (args : List Bytes) (w : World) :
    (commit now args w).world.objects = w.objects ∧ (commit now args w).world.work = w.work ∧
      (commit now args w).world.locked = w.locked := by
  rcases commit_cases now args w with h1 | ⟨hargs, d, cs, hd, hc, hl⟩
  · exact h1.2
  · rw [commit_eq now args w d cs hargs hd hc hl]; exact ⟨rfl, rfl, rfl⟩

theorem takeWhile_append_stop (p : Byte → Bool) (l r : Bytes) (a : Byte)
    (hl : ∀ x ∈ l, p x = true) (ha : p a = false) : (l ++ a :: r).takeWhile p = l := by
  induction l with
  | nil => simp [List.takeWhile, ha]
  | cons x l ih =>
    have hx := hl x (List.mem_cons_self _ _)
    simp [List.takeWhile, hx]
    exact ih (fun y hy => hl y (List.mem_cons_of_mem _ hy))

theorem isLowerHex_ne_newline (b : Byte) (h : isLowerHex b = true) : b ≠ 10 := by
  intro e; subst e; revert h; decide

theorem firstLine_commitBody (d : Dir) (args : List Bytes) :
    firstLine (commitBody d args) = ascii "tree " ++ sha1sum (Join (manifest d) (ascii "\n")) := by
  have e : commitBody d args =
      (ascii "tree " ++ sha1sum (Join (manifest d) (ascii "\n"))) ++
        (10 : Byte) :: ((10 : Byte) :: (Join args (ascii " ") ++ ascii "\n")) := by
    have : ascii "\n\n" = [(10 : Byte), 10] := by decide
    simp [commitBody, this]
  rw [e]
  unfold firstLine
  apply takeWhile_append_stop
  · intro x hx
    rcases List.mem_append.1 hx with h | h
    · have ht : ascii "tree " = [(116 : Byte), 114, 101, 101, 32] := by decide
      rw [ht] at h
      simp only [List.mem_cons, List.mem_singleton, List.not_mem_nil, or_false] at h
      rcases h with h | h | h | h | h <;> (subst h; decide)
    · simpa using isLowerHex_ne_newline x (sha1sum_lower _ x h)
  · simp

theorem logLoop_world (w : World) (names out : List Bytes) : (logLoop w names out).world = w := by
  induction names generalizing out with
  | nil => rfl
  | cons n names ih =>
    cases hr : readFile w (filepathJoin commitsDir n) with
    | none => simp [logLoop, hr]
    | some c => simp [logLoop, hr, ih]

theorem logCommand_world (w : World) : (logCommand w).world = w := by
  unfold logCommand
  cases readDir w commitsDir with
  | none => rfl
  | some names => exact logLoop_world w _ _

/-- C3 (commit captures the full object set). Let the object directory `d` be well
formed, the commits directory exist and the record's path not be refused. For every
non-empty list of message words `commit` succeeds, and the body it persists under the
commit identity is `"tree " ++ sha1sum(M) ++ "\n\n" ++ message ++ "\n"`, where `message`
is the words joined by single spaces and `M` is the newline-join of the lines
`<object name> <sha1sum(object content)>` of a list `es` of entries that is a
rearrangement of all of `d` (sorted by name): one line per stored object, so as many
lines as objects. -/
theorem commit_captures_all (w : World) (d cs : Dir) (now : Time) (args : List Bytes)
    (hargs : args ≠ []) (hd : w.objects = some d) (hwf : d.WF) (hc : w.commits = some cs)
    (hl : w.locked (filepathJoin commitsDir now.Format) = false) :
    ∃ es : Dir, es.Perm d ∧ es.Pairwise (fun a b => strLt a.1 b.1 = true) ∧
      (es.map (fun e => e.1 ++ ascii " " ++ sha1sum e.2)).length = d.length ∧
      (commit now args w).status = .ok ∧
      (commit now args w).world.commits.bind (fun c => c.read now.Format) =
        some (ascii "tree " ++
          sha1sum (Join (es.map (fun e => e.1 ++ ascii " " ++ sha1sum e.2)) (ascii "\n")) ++
          ascii "\n\n" ++ Join args (ascii " ") ++ ascii "\n") := by
  refine ⟨d.sorted, Dir.sorted_perm d hwf, ?_, ?_, ?_, ?_⟩
  · have h := Dir.listing_strict d hwf
    rw [← Dir.sorted_names d] at h
    exact List.pairwise_map.1 h
  · simpa using (Dir.sorted_perm d hwf).length_eq
  · rw [commit_eq now args w d cs hargs hd hc hl]
  · rw [commit_eq now args w d cs hargs hd hc hl]
    simp only [Option.some_bind, Dir.read_write_same]
    rfl

/-- C5, as the code has it. With zero message words `commit` prints its request for a
message, exits with status 1 and leaves the file system, so the commit records, as they
were. -/
theorem commit_no_words_rejected (now : Time) (w : World) :
    (commit now [] w).status = .exit 1 ∧ (commit now [] w).world = w ∧
      (commit now [] w).stdout = [ascii "Please provide a commit message.\n"] := by
  rw [commit_nil]; exact ⟨rfl, rfl, rfl⟩

/-- C6 (the tree digest is a function of the object store alone). There is a function
`treeDigest` of the object directory such that every successful `commit`, at any time and
with any message, persists the body `"tree " ++ treeDigest d ++ "\n\n" ++ message ++ "\n"`,
whose first line is `"tree " ++ treeDigest d`; so two commits from file systems with the
same object directory have the same tree line, and a second commit right after a first
one with the same message (no `add` in between) persists a byte-identical body. -/
theorem commit_tree_deterministic :
    ∃ treeDigest : Dir → Bytes,
      (∀ (w : World) (d : Dir) (now : Time) (args : List Bytes), w.objects = some d →
        (commit now args w).status = .ok →
        (commit now args w).world.commits.bind (fun c => c.read now.Format) =
          some (ascii "tree " ++ treeDigest d ++ ascii "\n\n" ++ Join args (ascii " ")
            ++ ascii "\n") ∧
        firstLine (ascii "tree " ++ treeDigest d ++ ascii "\n\n" ++ Join args (ascii " ")
            ++ ascii "\n") = ascii "tree " ++ treeDigest d) ∧
      (∀ (w1 w2 : World) (now1 now2 : Time) (args1 args2 : List Bytes),
        w1.objects = w2.objects →
        (commit now1 args1 w1).status = .ok → (commit now2 args2 w2).status = .ok →
        ∃ b1 b2,
          (commit now1 args1 w1).world.commits.bind (fun c => c.read now1.Format) = some b1 ∧
          (commit now2 args2 w2).world.commits.bind (fun c => c.read now2.Format) = some b2 ∧
          firstLine b1 = firstLine b2) ∧
      (∀ (w : World) (now1 now2 : Time) (args : List Bytes),
        (commit now1 args w).status = .ok →
        (commit now2 args (commit now1 args w).world).status = .ok →
        ∃ b,
          (commit now1 args w).world.commits.bind (fun c => c.read now1.Format) = some b ∧
          (commit now2 args (commit now1 args w).world).world.commits.bind
            (fun c => c.read now2.Format) = some b) := by
  have key : ∀ (w : World) (d : Dir) (now : Time) (args : List Bytes), w.objects = some d →
      (commit now args w).status = .ok →
      (commit now args w).world.commits.bind (fun c => c.read now.Format) =
        some (commitBody d args) := by
    intro w d now args hd hok
    obtain ⟨hargs, d0, cs, hd0, hc, hl⟩ := commit_ok now args w hok
    rw [hd] at hd0; cases hd0
    rw [commit_eq now args w d cs hargs hd hc hl]
    simp only [Option.some_bind, Dir.read_write_same]
  refine ⟨fun d => sha1sum (Join (manifest d) (ascii "\n")), ?_, ?_, ?_⟩
  · intro w d now args hd hok
    exact ⟨key w d now args hd hok, firstLine_commitBody d args⟩
  · intro w1 w2 now1 now2 args1 args2 ho h1 h2
    obtain ⟨_, d, _, hd, _, _⟩ := commit_ok now1 args1 w1 h1
    refine ⟨commitBody d args1, commitBody d args2, key w1 d now1 args1 hd h1,
      key w2 d now2 args2 (ho ▸ hd) h2, ?_⟩
    rw [firstLine_commitBody, firstLine_commitBody]
  · intro w now1 now2 args h1 h2
    obtain ⟨_, d, _, hd, _, _⟩ := commit_ok now1 args w h1
    refine ⟨commitBody d args, key w d now1 args hd h1, ?_⟩
    exact key _ d now2 args ((commit_keeps now1 args w).1.trans hd) h2

/-- C7 (objects are immutable and never deleted). An object stored as `name` with
content `c` is, after `add` of any files, after `commit` at any time with any words and
after `log`, however the command ends, still stored as `name` with content `c`; `commit`
and `log` leave the object directory exactly as it was. -/
theorem objects_immutable (w : World) (d : Dir) (name c : Bytes) (files args : List Bytes)
    (now : Time) (hd : w.objects = some d) (hr : d.read name = some c) :
    (∃ d1, (add files w).world.objects = some d1 ∧ d1.read name = some c) ∧
      (commit now args w).world.objects = some d ∧ (logCommand w).world.objects = some d := by
  refine ⟨?_, ?_, ?_⟩
  · obtain ⟨_, _, _, _, _, ho⟩ := add_extends files w
    obtain ⟨d1, hd1, k⟩ := ho d hd
    exact ⟨d1, hd1, k name c hr⟩
  · rw [(commit_keeps now args w).1]; exact hd
  · rw [logCommand_world]; exact hd

/-- C10 (commit identity collision). After a successful first `commit` into a well-formed
commits directory, and any `add` in between, a second `commit` with at least one message
word whose creation time lies in the same second gets the same identity and succeeds;
afterwards the commits directory has as many records as after the first commit, and
exactly one record under that identity: the second commit's body. -/
theorem commit_collision_last_write_wins (w : World) (cs : Dir) (now1 now2 : Time)
    (args1 args2 files : List Bytes)
    (hc : w.commits = some cs) (hwf : cs.WF)
    (h1 : (commit now1 args1 w).status = .ok)
    (hargs : args2 ≠ [])
    (hsame : Time.sameSecond now1 now2 = true) :
    now2.Format = now1.Format ∧
      (commit now2 args2 (add files (commit now1 args1 w).world).world).status = .ok ∧
      ∃ c1 c2 d2,
        (commit now1 args1 w).world.commits = some c1 ∧
        (add files (commit now1 args1 w).world).world.objects = some d2 ∧
        (commit now2 args2 (add files (commit now1 args1 w).world).world).world.commits
          = some c2 ∧
        c2.length = c1.length ∧
        c2.under now1.Format =
          [(now1.Format, ascii "tree " ++ sha1sum (Join (manifest d2) (ascii "\n")) ++
            ascii "\n\n" ++ Join args2 (ascii " ") ++ ascii "\n")] := by
  have hfmt : now2.Format = now1.Format := by
    simp only [Time.sameSecond, Bool.and_eq_true, decide_eq_true_eq] at hsame
    obtain ⟨⟨⟨⟨⟨hy, hmo⟩, hday⟩, hh⟩, hmi⟩, hs⟩ := hsame
    simp [Time.Format, hy, hmo, hday, hh, hmi, hs]
  obtain ⟨hargs1, d, cs0, hd, hc0, hl⟩ := commit_ok now1 args1 w h1
  rw [hc] at hc0; cases hc0
  have e1 := commit_eq now1 args1 w d cs hargs1 hd hc hl
  obtain ⟨hwork, hcom, hlock, _, _, hobj⟩ := add_extends files (commit now1 args1 w).world
  obtain ⟨d2, hd2, _⟩ := hobj d ((commit_keeps now1 args1 w).1.trans hd)
  have hc2 : (add files (commit now1 args1 w).world).world.commits
      = some (cs.write now1.Format (commitBody d args1)) := by
    rw [hcom, e1]
  have hl2 : (add files (commit now1 args1 w).world).world.locked
      (filepathJoin commitsDir now2.Format) = false := by
    rw [hlock, (commit_keeps now1 args1 w).2.2, hfmt]; exact hl
  have e2 := commit_eq now2 args2 _ d2 _ hargs hd2 hc2 hl2
  refine ⟨hfmt, ?_, cs.write now1.Format (commitBody d args1),
    (cs.write now1.Format (commitBody d args1)).write now2.Format (commitBody d2 args2), d2,
    ?_, hd2, ?_, ?_, ?_⟩
  · rw [e2]
  · rw [e1]
  · rw [e2]
  · rw [hfmt]
    exact Dir.length_write_present _ _ _ _ (Dir.read_write_same cs _ _)
  · rw [hfmt]
    exact Dir.under_of_read _ (Dir.write_WF _ _ _ (Dir.write_WF cs _ _ hwf)) _ _
      (Dir.read_write_same _ _ _)

theorem digit_val (n : Nat) (h : n < 10) : (digit n).val = 48 + n := by
  show (48 + n) % (255 + 1) = 48 + n
  omega

theorem digit_lt (m n : Nat) (h : m < n) (hn : n < 10) : digit m < digit n := by
  rw [Fin.lt_def, digit_val m (by omega), digit_val n hn]
  omega

theorem decDigits_small (fuel u : Nat) (acc : Bytes) (h : u < 10) :
    decDigits (fuel + 1) u acc = digit u :: acc := by
  have : ¬ 10 ≤ u := by omega
  simp [decDigits, this, digit]

theorem decDigits_large (fuel u : Nat) (acc : Bytes) (h : 10 ≤ u) :
    decDigits (fuel + 1) u acc = decDigits fuel (u / 10) (digit (u % 10) :: acc) := by
  simp [decDigits, h, digit]

theorem appendInt_nat (b : Bytes) (n width : Nat) :
    appendInt b (n : Int) width =
      b ++ List.replicate (width - (decDigits 20 n []).length) (digit 0) ++ decDigits 20 n [] := by
  have hneg : ¬ ((n : Int) < 0) := by omega
  simp [appendInt, hneg, digit]

theorem appendInt_two (b : Bytes) (n : Nat) (h : n < 100) :
    appendInt b (n : Int) 2 = b ++ pad2 n := by
  rw [appendInt_nat]
  by_cases h10 : 10 ≤ n
  · rw [show (20 : Nat) = 18 + 1 + 1 from rfl, decDigits_large _ _ _ h10,
      decDigits_small _ _ _ (by omega)]
    simp [pad2]
  · have h0 : n / 10 = 0 := by omega
    have h1 : n % 10 = n := by omega
    rw [show (20 : Nat) = 19 + 1 from rfl, decDigits_small _ _ _ (by omega)]
    simp [pad2, h0, h1]

theorem appendInt_four (b : Bytes) (y : Int) (h0 : 0 ≤ y) (h : y ≤ 9999) :
    appendInt b y 4 = b ++ pad4 y.toNat := by
  obtain ⟨n, rfl⟩ := Int.eq_ofNat_of_zero_le h0
  have hn : n ≤ 9999 := by omega
  rw [appendInt_nat, Int.toNat_ofNat]
  by_cases h10 : 10 ≤ n
  · by_cases h100 : 10 ≤ n / 10
    · by_cases h1000 : 10 ≤ n / 10 / 10
      · have e1 : n / 10 / 10 / 10 = n / 1000 := by omega
        have e2 : n / 10 / 10 % 10 = n / 100 % 10 := by omega
        rw [show (20 : Nat) = 16 + 1 + 1 + 1 + 1 from rfl, decDigits_large _ _ _ h10,
          decDigits_large _ _ _ h100, decDigits_large _ _ _ h1000,
          decDigits_small _ _ _ (by omega)]
        simp [pad4, e1, e2]
      · have e1 : n / 1000 = 0 := by omega
        have e2 : n / 10 / 10 = n / 100 % 10 := by omega
        rw [show (20 : Nat) = 17 + 1 + 1 + 1 from rfl, decDigits_large _ _ _ h10,
          decDigits_large _ _ _ h100, decDigits_small _ _ _ (by omega)]
        simp [pad4, e1, e2]
    · have e1 : n / 1000 = 0 := by omega
      have e2 : n / 100 % 10 = 0 := by omega
      have e3 : n / 10 % 10 = n / 10 := by omega
      rw [show (20 : Nat) = 18 + 1 + 1 from rfl, decDigits_large _ _ _ h10,
        decDigits_small _ _ _ (by omega)]
      simp [pad4, e1, e2, e3, List.replicate]
  · have e1 : n / 1000 = 0 := by omega
    have e2 : n / 100 % 10 = 0 := by omega
    have e3 : n / 10 % 10 = 0 := by omega
    have e4 : n % 10 = n := by omega
    rw [show (20 : Nat) = 19 + 1 from rfl, decDigits_small _ _ _ (by omega)]
    simp [pad4, e1, e2, e3, e4, List.replicate]

/-- The commit identity of a calendar date-time with a four-digit year is
`YYYY-MM-DDThh-mm-ss`. -/
theorem Format_eq (t : Time) (hv : t.Valid) (h0 : 0 ≤ t.year) (h : t.year ≤ 9999) :
    t.Format = pad4 t.year.toNat ++ ascii "-" ++ pad2 t.month ++ ascii "-" ++ pad2 t.day ++
      ascii "T" ++ pad2 t.hour ++ ascii "-" ++ pad2 t.minute ++ ascii "-" ++ pad2 t.second := by
  obtain ⟨_, hmo, _, hd, hh, hmi, hs, _⟩ := hv
  simp only [Time.Format]
  rw [appendInt_four _ _ h0 h, appendInt_two _ _ (by omega), appendInt_two _ _ (by omega),
    appendInt_two _ _ (by omega), appendInt_two _ _ (by omega), appendInt_two _ _ (by omega)]
  simp

theorem strLt_append_same (p a b : Bytes) : strLt (p ++ a) (p ++ b) = strLt a b := by
  induction p with
  | nil => rfl
  | cons x p ih => simp [strLt, ih]

theorem strLt_append_of_lt (p q a b : Bytes) (hlen : p.length = q.length)
    (h : strLt p q = true) : strLt (p ++ a) (q ++ b) = true := by
  induction p generalizing q with
  | nil =>
    cases q with
    | nil => simp [strLt] at h
    | cons y q => simp at hlen
  | cons x p ih =>
    cases q with
    | nil => simp at hlen
    | cons y q =>
      simp only [List.cons_append]
      rw [strLt_cons] at h ⊢
      rcases h with h | ⟨e, h⟩
      · exact Or.inl h
      · exact Or.inr ⟨e, ih q (by simpa using hlen) h⟩

/-- Lexicographic comparison field by field. -/
theorem strLt_field (p q sep a b : Bytes) (hlen : p.length = q.length)
    (h : strLt p q = true ∨ (p = q ∧ strLt a b = true)) :
    strLt (p ++ sep ++ a) (q ++ sep ++ b) = true := by
  rcases h with h | ⟨e, h⟩
  · rw [List.append_assoc, List.append_assoc]
    exact strLt_append_of_lt p q _ _ hlen h
  · subst e
    rw [strLt_append_same]; exact h

theorem pad2_lt (m n : Nat) (h : m < n) (hn : n < 100) : strLt (pad2 m) (pad2 n) = true := by
  unfold pad2
  rw [strLt_cons]
  by_cases h1 : m / 10 < n / 10
  · exact Or.inl (digit_lt _ _ h1 (by omega))
  · have e : m / 10 = n / 10 := by omega
    refine Or.inr ⟨by rw [e], ?_⟩
    rw [strLt_cons]
    exact Or.inl (digit_lt _ _ (by omega) (by omega))

theorem pad4_lt (m n : Nat) (h : m < n) (hn : n < 10000) : strLt (pad4 m) (pad4 n) = true := by
  unfold pad4
  rw [strLt_cons]
  by_cases h1 : m / 1000 < n / 1000
  · exact Or.inl (digit_lt _ _ h1 (by omega))
  · have e1 : m / 1000 = n / 1000 := by omega
    refine Or.inr ⟨by rw [e1], ?_⟩
    rw [strLt_cons]
    by_cases h2 : m / 100 % 10 < n / 100 % 10
    · exact Or.inl (digit_lt _ _ h2 (by omega))
    · have e2 : m / 100 % 10 = n / 100 % 10 := by omega
      refine Or.inr ⟨by rw [e2], ?_⟩
      rw [strLt_cons]
      by_cases h3 : m / 10 % 10 < n / 10 % 10
      · exact Or.inl (digit_lt _ _ h3 (by omega))
      · have e3 : m / 10 % 10 = n / 10 % 10 := by omega
        refine Or.inr ⟨by rw [e3], ?_⟩
        rw [strLt_cons]
        exact Or.inl (digit_lt _ _ (by omega) (by omega))

/-- Commit identities of four-digit years sort in creation order. -/
theorem Format_lt (t1 t2 : Time) (hv1 : t1.Valid) (hv2 : t2.Valid)
    (hy1 : 0 ≤ t1.year ∧ t1.year ≤ 9999) (hy2 : 0 ≤ t2.year ∧ t2.year ≤ 9999)
    (hlt : t1.before t2 = true) (hsec : t1.sameSecond t2 = false) :
    strLt t1.Format t2.Format = true := by
  rw [Format_eq t1 hv1 hy1.1 hy1.2, Format_eq t2 hv2 hy2.1 hy2.2]
  obtain ⟨_, hmo, _, hd, hh, hmi, hs, _⟩ := hv2
  obtain ⟨y1, mo1, d1, h1, mi1, s1, n1⟩ := t1
  obtain ⟨y2, mo2, d2, h2, mi2, s2, n2⟩ := t2
  simp only [Time.before, Bool.or_eq_true, Bool.and_eq_true, decide_eq_true_eq] at hlt
  simp only [Time.sameSecond, Bool.and_eq_false_iff, decide_eq_false_iff_not] at hsec
  simp only at hy1 hy2 hmo hd hh hmi hs ⊢
  have hp2 : ∀ a b : Nat, (pad2 a).length = (pad2 b).length := fun _ _ => rfl
  have hp4 : ∀ a b : Nat, (pad4 a).length = (pad4 b).length := fun _ _ => rfl
  simp only [List.append_assoc]
  rw [← List.append_assoc (pad4 y1.toNat), ← List.append_assoc (pad4 y2.toNat)]
  apply strLt_field _ _ _ _ _ (hp4 _ _)
  by_cases ey : y1 = y2
  swap
  · left; exact pad4_lt _ _ (by omega) (by omega)
  right; refine ⟨by rw [ey], ?_⟩
  rw [← List.append_assoc (pad2 mo1), ← List.append_assoc (pad2 mo2)]
  apply strLt_field _ _ _ _ _ (hp2 _ _)
  by_cases emo : mo1 = mo2
  swap
  · left; exact pad2_lt _ _ (by omega) (by omega)
  right; refine ⟨by rw [emo], ?_⟩
  rw [← List.append_assoc (pad2 d1), ← List.append_assoc (pad2 d2)]
  apply strLt_field _ _ _ _ _ (hp2 _ _)
  by_cases ed : d1 = d2
  swap
  · left; exact pad2_lt _ _ (by omega) (by omega)
  right; refine ⟨by rw [ed], ?_⟩
  rw [← List.append_assoc (pad2 h1), ← List.append_assoc (pad2 h2)]
  apply strLt_field _ _ _ _ _ (hp2 _ _)
  by_cases eh : h1 = h2
  swap
  · left; exact pad2_lt _ _ (by omega) (by omega)
  right; refine ⟨by rw [eh], ?_⟩
  rw [← List.append_assoc (pad2 mi1), ← List.append_assoc (pad2 mi2)]
  apply strLt_field _ _ _ _ _ (hp2 _ _)
  by_cases emi : mi1 = mi2
  swap
  · left; exact pad2_lt _ _ (by omega) (by omega)
  right; refine ⟨by rw [emi], ?_⟩
  exact pad2_lt _ _ (by omega) (by omega)

theorem newer_antisymm (a b : Bytes × Bytes) (hab : Newer a b) (hba : Newer b a) : a = b := by
  unfold Newer at hab hba
  rw [strLt_asymm _ _ hab] at hba
  cases hba

theorem logLoop_eq (w : World) (cs : Dir) (hc : w.commits = some cs)
    (names out : List Bytes) (h : ∀ n ∈ names, n ∈ cs.names) :
    logLoop w names out = ⟨w, out ++
      (names.filterMap (fun n => (cs.read n).map (fun c => (n, c)))).map
        (fun r => logEntry r.2), .ok⟩ := by
  induction names generalizing out with
  | nil => simp [logLoop]
  | cons n names ih =>
    have hn : n ∈ cs.names := h n (List.mem_cons_self _ _)
    cases hr : cs.read n with
    | none => exact absurd hn ((Dir.read_eq_none_iff cs n).1 hr)
    | some c =>
      have hf : readFile w (filepathJoin commitsDir n) = some c := by
        rw [readFile_commit, hc]; exact hr
      simp only [logLoop, hf]
      rw [ih _ (fun m hm => h m (List.mem_cons_of_mem _ hm))]
      simp [hr, logEntry]

theorem logCommand_eq (w : World) (cs : Dir) (hc : w.commits = some cs) :
    logCommand w = ⟨w, cs.sorted.reverse.map (fun r => logEntry r.2), .ok⟩ := by
  unfold logCommand
  rw [readDir_commits, hc]
  simp only [Option.map_some']
  rw [logLoop_eq w cs hc _ [] (fun n hn =>
    (Dir.listing_perm cs).subset (List.mem_reverse.1 hn))]
  simp [Dir.sorted]

theorem Dir.sorted_reverse_newer (cs : Dir) (hwf : cs.WF) : cs.sorted.reverse.Pairwise Newer := by
  rw [List.pairwise_reverse]
  have h := Dir.listing_strict cs hwf
  rw [← Dir.sorted_names cs] at h
  exact List.pairwise_map.1 h

/-- Three records with increasing identities appear in a log newest first. -/
theorem log_sublist (cs : Dir) (hwf : cs.WF) (n1 n2 n3 b1 b2 b3 : Bytes)
    (h12 : strLt n1 n2 = true) (h23 : strLt n2 n3 = true)
    (r1 : cs.read n1 = some b1) (r2 : cs.read n2 = some b2) (r3 : cs.read n3 = some b3) :
    List.Sublist [(n3, b3), (n2, b2), (n1, b1)] cs.sorted.reverse := by
  have h13 := strLt_trans _ _ _ h12 h23
  have hs : List.Sorted Newer [(n3, b3), (n2, b2), (n1, b1)] := by
    simp [List.Sorted, Newer, h12, h23, h13]
  have hnd : [(n3, b3), (n2, b2), (n1, b1)].Nodup := by
    have := strLt_ne _ _ h12
    have := strLt_ne _ _ h23
    have := strLt_ne _ _ h13
    simp
    refine ⟨⟨?_, ?_⟩, ?_⟩ <;> intro e <;> simp_all
  have hsub : [(n3, b3), (n2, b2), (n1, b1)] ⊆ cs.sorted.reverse := by
    intro e he
    rw [List.mem_reverse]
    apply (Dir.sorted_perm cs hwf).symm.subset
    simp only [List.mem_cons, List.mem_singleton, List.not_mem_nil, or_false] at he
    rcases he with he | he | he <;> subst he
    · exact Dir.mem_of_read cs _ _ r3
    · exact Dir.mem_of_read cs _ _ r2
    · exact Dir.mem_of_read cs _ _ r1
  haveI : IsAntisymm (Bytes × Bytes) Newer := ⟨newer_antisymm⟩
  exact List.sublist_of_subperm_of_sorted (List.subperm_of_subset hnd hsub) hs
    (Dir.sorted_reverse_newer cs hwf)

/-- C4, as the code has it. For every well-formed commits directory `log` succeeds and
prints exactly one entry per record: there is a rearrangement `rs` of all the records, in
strictly descending order of commit identity, such that the output is the trimmed body of
each record of `rs` in turn. And for three successful commits in a row at times
`t1 < t2 < t3` that lie in three different seconds and have years from 0 to 9999, the
three bodies appear in the log in the order `t3`, `t2`, `t1`. -/
theorem log_newest_first :
    (∀ (w : World) (cs : Dir), w.commits = some cs → cs.WF →
      ∃ rs : Dir, rs.Perm cs ∧ rs.Pairwise (fun a b => strLt b.1 a.1 = true) ∧
        (logCommand w).stdout = rs.map (fun r => ascii "\n" ++ TrimSpace r.2 ++ ascii "\n\n") ∧
        (logCommand w).stdout.length = cs.length ∧ (logCommand w).status = .ok) ∧
    (∀ (w : World) (cs : Dir) (t1 t2 t3 : Time) (a1 a2 a3 : List Bytes),
      w.commits = some cs → cs.WF →
      t1.Valid → t2.Valid → t3.Valid →
      (0 ≤ t1.year ∧ t1.year ≤ 9999) → (0 ≤ t2.year ∧ t2.year ≤ 9999) →
      (0 ≤ t3.year ∧ t3.year ≤ 9999) →
      t1.before t2 = true → t2.before t3 = true →
      t1.sameSecond t2 = false → t2.sameSecond t3 = false →
      (commit t1 a1 w).status = .ok →
      (commit t2 a2 (commit t1 a1 w).world).status = .ok →
      (commit t3 a3 (commit t2 a2 (commit t1 a1 w).world).world).status = .ok →
      ∃ b1 b2 b3,
        (commit t1 a1 w).world.commits.bind (fun c => c.read t1.Format) = some b1 ∧
        (commit t2 a2 (commit t1 a1 w).world).world.commits.bind
          (fun c => c.read t2.Format) = some b2 ∧
        (commit t3 a3 (commit t2 a2 (commit t1 a1 w).world).world).world.commits.bind
          (fun c => c.read t3.Format) = some b3 ∧
        List.Sublist
          [ascii "\n" ++ TrimSpace b3 ++ ascii "\n\n", ascii "\n" ++ TrimSpace b2 ++ ascii "\n\n",
            ascii "\n" ++ TrimSpace b1 ++ ascii "\n\n"]
          (logCommand (commit t3 a3 (commit t2 a2 (commit t1 a1 w).world).world).world).stdout)
    := by
  constructor
  · intro w cs hc hwf
    refine ⟨cs.sorted.reverse, (List.reverse_perm _).trans (Dir.sorted_perm cs hwf),
      Dir.sorted_reverse_newer cs hwf, ?_, ?_, ?_⟩
    · rw [logCommand_eq w cs hc]; rfl
    · rw [logCommand_eq w cs hc]
      simpa using (Dir.sorted_perm cs hwf).length_eq
    · rw [logCommand_eq w cs hc]
  · intro w cs t1 t2 t3 a1 a2 a3 hc hwf hv1 hv2 hv3 hy1 hy2 hy3 hb12 hb23 hs12 hs23 h1 h2 h3
    have h12 := Format_lt t1 t2 hv1 hv2 hy1 hy2 hb12 hs12
    have h23 := Format_lt t2 t3 hv2 hv3 hy2 hy3 hb23 hs23
    obtain ⟨ha1, d1, c1, hd1, hc1, hl1⟩ := commit_ok t1 a1 w h1
    rw [hc] at hc1; cases hc1
    have e1 := commit_eq t1 a1 w d1 cs ha1 hd1 hc hl1
    obtain ⟨ha2, d2, c2, hd2, hc2, hl2⟩ := commit_ok t2 a2 _ h2
    have e2 := commit_eq t2 a2 _ d2 c2 ha2 hd2 hc2 hl2
    obtain ⟨ha3, d3, c3, hd3, hc3, hl3⟩ := commit_ok t3 a3 _ h3
    have e3 := commit_eq t3 a3 _ d3 c3 ha3 hd3 hc3 hl3
    have k2 : c2 = cs.write t1.Format (commitBody d1 a1) := by
      rw [e1] at hc2; simpa using hc2.symm
    have k3 : c3 = c2.write t2.Format (commitBody d2 a2) := by
      rw [e2] at hc3; simpa using hc3.symm
    have hw3 : (c3.write t3.Format (commitBody d3 a3)).WF := by
      rw [k3, k2]
      exact Dir.write_WF _ _ _ (Dir.write_WF _ _ _ (Dir.write_WF _ _ _ hwf))
    have r3 : (c3.write t3.Format (commitBody d3 a3)).read t3.Format = some (commitBody d3 a3) :=
      Dir.read_write_same _ _ _
    have r2 : (c3.write t3.Format (commitBody d3 a3)).read t2.Format = some (commitBody d2 a2) := by
      rw [Dir.read_write_ne _ _ _ _ (strLt_ne _ _ h23), k3]
      exact Dir.read_write_same _ _ _
    have r1 : (c3.write t3.Format (commitBody d3 a3)).read t1.Format = some (commitBody d1 a1) := by
      rw [Dir.read_write_ne _ _ _ _ (strLt_ne _ _ (strLt_trans _ _ _ h12 h23)), k3,
        Dir.read_write_ne _ _ _ _ (strLt_ne _ _ h12), k2]
      exact Dir.read_write_same _ _ _
    have hw : (commit t3 a3 (commit t2 a2 (commit t1 a1 w).world).world).world.commits
        = some (c3.write t3.Format (commitBody d3 a3)) := by rw [e3]
    refine ⟨commitBody d1 a1, commitBody d2 a2, commitBody d3 a3, ?_, ?_, ?_, ?_⟩
    · rw [e1]; simp only [Option.some_bind, Dir.read_write_same]
    · rw [e2]; simp only [Option.some_bind, Dir.read_write_same]
    · rw [e3]; simp only [Option.some_bind, Dir.read_write_same]
    · rw [logCommand_eq _ _ hw]
      have := (log_sublist _ hw3 _ _ _ _ _ _ h12 h23 r1 r2 r3).map (fun r => logEntry r.2)
      simpa [logEntry] using this

/-- C9, as the code has it. The commit identity of a calendar date-time whose year lies
between 0 and 9999 is `YYYY-MM-DDThh-mm-ss`, 19 bytes at second resolution; and for two
such date-times `t1` before `t2` of one time zone that differ in their whole second, the
identity of `t1` is strictly smaller than that of `t2` in bytewise lexicographic order. -/
theorem commitID_sortable (t1 t2 : Time) (hv1 : t1.Valid) (hv2 : t2.Valid)
    (hy1 : 0 ≤ t1.year ∧ t1.year ≤ 9999) (hy2 : 0 ≤ t2.year ∧ t2.year ≤ 9999)
    (hlt : t1.before t2 = true) (hsec : t1.sameSecond t2 = false) :
    strLt t1.Format t2.Format = true ∧
      t1.Format = pad4 t1.year.toNat ++ ascii "-" ++ pad2 t1.month ++ ascii "-" ++
        pad2 t1.day ++ ascii "T" ++ pad2 t1.hour ++ ascii "-" ++ pad2 t1.minute ++
        ascii "-" ++ pad2 t1.second ∧
      t1.Format.length = 19 := by
  refine ⟨Format_lt t1 t2 hv1 hv2 hy1 hy2 hlt hsec, Format_eq t1 hv1 hy1.1 hy1.2, ?_⟩
  rw [Format_eq t1 hv1 hy1.1 hy1.2]
  rfl

set_option maxRecDepth 100000 in
/-- The SHA-1 test vectors of FIPS 180 and the digests used below. -/
theorem sha1sum_vectors :
    sha1sum (ascii "") = ascii "da39a3ee5e6b4b0d3255bfef95601890afd80709" ∧
    sha1sum (ascii "abc") = ascii "a9993e364706816aba3e25717850c26c9cd0d89d" ∧
    sha1sum (ascii "abcdbcdecdefdefgefghfghighijhijkijkljklmklmnlmnomnopnopq")
      = ascii "84983e441c3bd26ebaae4aa1f95129e5e54670f1" ∧
    sha1sum (ascii "hello") = ascii "aaf4c61ddcc5e8a2dabede0f3b482cd9aea9434d" := by
  decide

set_option maxRecDepth 100000 in
theorem demoObjects_WF : demoObjects.WF := by
  unfold Dir.WF
  decide

set_option maxRecDepth 100000 in
/-- Witness of C1 in a fresh repository. -/
theorem add_content_addressed_witness :
    (demoWorld.objects = some [] ∧ readFile demoWorld (ascii "a.txt") = some (ascii "hello")) ∧
    ((add [ascii "a.txt"] demoWorld).status = .ok ∧
      (∃ d1, (add [ascii "a.txt", ascii "b.txt"] demoWorld).world.objects = some d1 ∧
        d1.read (sha1sum (ascii "hello")) = some (ascii "hello")) ∧
      (sha1sum (ascii "hello")).length = 40 ∧
      ∀ b ∈ sha1sum (ascii "hello"), isLowerHex b = true) :=
  ⟨⟨rfl, by decide⟩,
    add_content_addressed demoWorld [] (ascii "a.txt") (ascii "hello") [ascii "b.txt"] rfl
      (by decide) (fun y h => by simp [Dir.read] at h) (fun _ => rfl)⟩

set_option maxRecDepth 100000 in
/-- Witness of C2 in a fresh repository. -/
theorem add_twice_idempotent_witness :
    (demoWorld.objects = some [] ∧ Dir.WF [] ∧
      readFile demoWorld (ascii "a.txt") = some (ascii "hello") ∧
      (add [ascii "a.txt"] demoWorld).status = .ok ∧
      readFile (add [ascii "a.txt"] demoWorld).world (ascii "a.txt") = some (ascii "hello")) ∧
    (add [ascii "a.txt"] (add [ascii "a.txt"] demoWorld).world).world
      = (add [ascii "a.txt"] demoWorld).world :=
  ⟨⟨rfl, List.nodup_nil, by decide, by decide, by decide⟩,
    (add_twice_idempotent demoWorld [] (ascii "a.txt") (ascii "a.txt") (ascii "hello") rfl
      List.nodup_nil (by decide) (by decide) (by decide)).2.1⟩

set_option maxRecDepth 100000 in
/-- Witness of C3 with two stored objects. -/
theorem commit_captures_all_witness :
    ([ascii "first", ascii "commit"] ≠ [] ∧ demoStored.objects = some demoObjects ∧
      demoObjects.WF ∧ demoStored.commits = some [] ∧
      demoStored.locked (filepathJoin commitsDir demoT1.Format) = false) ∧
    ∃ es : Dir, es.Perm demoObjects ∧ es.Pairwise (fun a b => strLt a.1 b.1 = true) ∧
      (es.map (fun e => e.1 ++ ascii " " ++ sha1sum e.2)).length = demoObjects.length ∧
      (commit demoT1 [ascii "first", ascii "commit"] demoStored).status = .ok ∧
      (commit demoT1 [ascii "first", ascii "commit"] demoStored).world.commits.bind
          (fun c => c.read demoT1.Format) =
        some (ascii "tree " ++
          sha1sum (Join (es.map (fun e => e.1 ++ ascii " " ++ sha1sum e.2)) (ascii "\n")) ++
          ascii "\n\n" ++ Join [ascii "first", ascii "commit"] (ascii " ") ++ ascii "\n") :=
  ⟨⟨by simp, rfl, demoObjects_WF, rfl, rfl⟩,
    commit_captures_all demoStored demoObjects [] demoT1 [ascii "first", ascii "commit"]
      (by simp) rfl demoObjects_WF rfl rfl⟩

set_option maxRecDepth 100000 in
/-- The commit of the end-to-end scenario, evaluated. -/
theorem commit_demo :
    (commit demoT1 [ascii "first", ascii "commit"] demoStored).world.commits =
      some [(ascii "2024-01-01T12-00-00",
        ascii "tree a416170899efc9d1ebca0a91ec7a419303ea44b4\n\nfirst commit\n")] := by
  decide

set_option maxRecDepth 100000 in
/-- C5 fails as stated: one empty message word joins to the empty message, and `commit`
accepts it and persists a record with an empty message. -/
theorem commit_empty_word_accepted :
    Join [[]] (ascii " ") = [] ∧
    (commit demoT1 [[]] demoWorld).status = .ok ∧
    (commit demoT1 [[]] demoWorld).world.commits =
      some [(ascii "2024-01-01T12-00-00",
        ascii "tree da39a3ee5e6b4b0d3255bfef95601890afd80709\n\n\n")] := by
  decide

set_option maxRecDepth 100000 in
/-- Witness of C6: two commits at different times with different messages. -/
theorem commit_tree_deterministic_witness :
    ∃ b1 b2,
      (commit demoT1 [ascii "first"] demoStored).world.commits.bind
        (fun c => c.read demoT1.Format) = some b1 ∧
      (commit demoT3 [ascii "second", ascii "one"] demoStored).world.commits.bind
        (fun c => c.read demoT3.Format) = some b2 ∧
      firstLine b1 = firstLine b2 := by
  obtain ⟨_, _, h, _⟩ := commit_tree_deterministic
  exact h demoStored demoStored demoT1 demoT3 [ascii "first"] [ascii "second", ascii "one"] rfl
    (by decide) (by decide)

set_option maxRecDepth 100000 in
/-- Witness of C7 with two stored objects. -/
theorem objects_immutable_witness :
    (demoStored.objects = some demoObjects ∧
      demoObjects.read (sha1sum (ascii "hello")) = some (ascii "hello")) ∧
    ((∃ d1, (add [ascii "b.txt", ascii "missing"] demoStored).world.objects = some d1 ∧
        d1.read (sha1sum (ascii "hello")) = some (ascii "hello")) ∧
      (commit demoT1 [ascii "first"] demoStored).world.objects = some demoObjects ∧
      (logCommand demoStored).world.objects = some demoObjects) :=
  ⟨⟨rfl, by simp [demoObjects, Dir.read]⟩,
    objects_immutable demoStored demoObjects (sha1sum (ascii "hello")) (ascii "hello")
      [ascii "b.txt", ascii "missing"] [ascii "first"] demoT1 rfl
      (by simp [demoObjects, Dir.read])⟩

set_option maxRecDepth 100000 in
/-- The batch of C8 evaluated: the second file is missing, the first one is stored. -/
theorem add_stops_demo :
    (add [ascii "a.txt", ascii "missing", ascii "b.txt"] demoWorld).status
      = .fatal .readFile ∧
    (add [ascii "a.txt", ascii "missing", ascii "b.txt"] demoWorld).world.objects
      = some [(ascii "aaf4c61ddcc5e8a2dabede0f3b482cd9aea9434d", ascii "hello")] := by
  decide

set_option maxRecDepth 100000 in
/-- With an object directory that cannot be searched `os.Stat` fails with an error that
is not a not-exist error: `add` skips the write, stores nothing and returns. -/
theorem add_unreachable_demo :
    (add [ascii "a.txt", ascii "b.txt"] blockedWorld).status = .ok ∧
    (add [ascii "a.txt", ascii "b.txt"] blockedWorld).world.objects = none ∧
    (commit demoT1 [ascii "first"] blockedWorld).status = .fatal .readObjectsDir := by
  decide

set_option maxRecDepth 100000 in
/-- A file argument that reaches a commit record by another spelling is read from the
store, and its content becomes an object. -/
theorem add_alias_demo :
    (add [ascii "./.go-git/commits/first"] aliasWorld).status = .ok ∧
    (add [ascii "./.go-git/commits/first"] aliasWorld).world.objects =
      some [(sha1sum (ascii "tree x\n\nfirst\n"), ascii "tree x\n\nfirst\n")] := by
  decide

set_option maxRecDepth 100000 in
/-- C9 fails as stated: the year 10000 is formatted with five digits, and the identity
of its first second sorts before the identity of the last second of the year 9999. -/
theorem commitID_year_overflow :
    lastFourDigit.Valid ∧ firstFiveDigit.Valid ∧
    lastFourDigit.before firstFiveDigit = true ∧
    lastFourDigit.sameSecond firstFiveDigit = false ∧
    lastFourDigit.Format = ascii "9999-12-31T23-59-59" ∧
    firstFiveDigit.Format = ascii "10000-01-01T00-00-00" ∧
    strLt lastFourDigit.Format firstFiveDigit.Format = false ∧
    strLt firstFiveDigit.Format lastFourDigit.Format = true := by
  decide

set_option maxRecDepth 100000 in
/-- Witness of C9. -/
theorem commitID_sortable_witness :
    (demoT2.Valid ∧ demoT3.Valid ∧ (0 ≤ demoT2.year ∧ demoT2.year ≤ 9999) ∧
      (0 ≤ demoT3.year ∧ demoT3.year ≤ 9999) ∧ demoT2.before demoT3 = true ∧
      demoT2.sameSecond demoT3 = false) ∧
    strLt demoT2.Format demoT3.Format = true :=
  ⟨⟨by decide, by decide, by decide, by decide, by decide, by decide⟩,
    (commitID_sortable demoT2 demoT3 (by decide) (by decide) (by decide) (by decide)
      (by decide) (by decide)).1⟩

set_option maxRecDepth 100000 in
/-- C4 fails as stated. Of three commits at times `t1 < t2 < t3`, the first two within
one second, the log shows two entries, the third and the second: the first is gone. And
of two commits in the last second of the year 9999 and the first second of the year
10000, the log shows the earlier one first. -/
theorem log_order_counterexample :
    (demoT1.before demoT2 = true ∧ demoT2.before demoT3 = true ∧
      (commit demoT1 [ascii "first"] demoWorld).status = .ok ∧
      (commit demoT2 [ascii "second"] (commit demoT1 [ascii "first"] demoWorld).world).status
        = .ok ∧
      (commit demoT3 [ascii "third"] (commit demoT2 [ascii "second"]
        (commit demoT1 [ascii "first"] demoWorld).world).world).status = .ok ∧
      (logCommand (commit demoT3 [ascii "third"] (commit demoT2 [ascii "second"]
        (commit demoT1 [ascii "first"] demoWorld).world).world).world).stdout =
        [ascii "\ntree da39a3ee5e6b4b0d3255bfef95601890afd80709\n\nthird\n\n",
         ascii "\ntree da39a3ee5e6b4b0d3255bfef95601890afd80709\n\nsecond\n\n"]) ∧
    (lastFourDigit.before firstFiveDigit = true ∧
      (commit lastFourDigit [ascii "earlier"] demoWorld).status = .ok ∧
      (commit firstFiveDigit [ascii "later"]
        (commit lastFourDigit [ascii "earlier"] demoWorld).world).status = .ok ∧
      (logCommand (commit firstFiveDigit [ascii "later"]
        (commit lastFourDigit [ascii "earlier"] demoWorld).world).world).stdout =
        [ascii "\ntree da39a3ee5e6b4b0d3255bfef95601890afd80709\n\nearlier\n\n",
         ascii "\ntree da39a3ee5e6b4b0d3255bfef95601890afd80709\n\nlater\n\n"]) := by
  decide

set_option maxRecDepth 100000 in
/-- Witness of C4: the log of a repository with one record, and three commits in three
different seconds. -/
theorem log_newest_first_witness :
    (∃ rs : Dir, rs.Perm [(ascii "2024-01-01T12-00-00", ascii "tree x\n\nfirst\n")] ∧
      rs.Pairwise (fun a b => strLt b.1 a.1 = true) ∧
      (logCommand loggedWorld).stdout
        = rs.map (fun r => ascii "\n" ++ TrimSpace r.2 ++ ascii "\n\n") ∧
      (logCommand loggedWorld).stdout.length = 1 ∧
      (logCommand loggedWorld).status = .ok) ∧
    (∃ b1 b2 b3,
      (commit demoT1 [ascii "first"] demoWorld).world.commits.bind
        (fun c => c.read demoT1.Format) = some b1 ∧
      (commit demoT3 [ascii "second"] (commit demoT1 [ascii "first"] demoWorld).world).world.commits.bind
        (fun c => c.read demoT3.Format) = some b2 ∧
      (commit demoT4 [ascii "third"] (commit demoT3 [ascii "second"]
        (commit demoT1 [ascii "first"] demoWorld).world).world).world.commits.bind
        (fun c => c.read demoT4.Format) = some b3 ∧
      List.Sublist
        [ascii "\n" ++ TrimSpace b3 ++ ascii "\n\n", ascii "\n" ++ TrimSpace b2 ++ ascii "\n\n",
          ascii "\n" ++ TrimSpace b1 ++ ascii "\n\n"]
        (logCommand (commit demoT4 [ascii "third"] (commit demoT3 [ascii "second"]
          (commit demoT1 [ascii "first"] demoWorld).world).world).world).stdout) :=
  ⟨log_newest_first.1 _ _ rfl (by unfold Dir.WF; decide),
    log_newest_first.2 demoWorld [] demoT1 demoT3 demoT4 [ascii "first"] [ascii "second"]
      [ascii "third"] rfl List.nodup_nil (by decide) (by decide) (by decide) (by decide)
      (by decide) (by decide) (by decide) (by decide) (by decide) (by decide) (by decide)
      (by decide) (by decide)⟩

set_option maxRecDepth 100000 in
/-- Witness of C10: two commits within one second, an `add` in between. -/
theorem commit_collision_last_write_wins_witness :
    (demoWorld.commits = some [] ∧ Dir.WF [] ∧
      (commit demoT1 [ascii "first"] demoWorld).status = .ok ∧ [ascii "second"] ≠ [] ∧
      demoT1.sameSecond demoT2 = true) ∧
    (commit demoT2 [ascii "second"]
      (add [ascii "a.txt"] (commit demoT1 [ascii "first"] demoWorld).world).world).status = .ok :=
  ⟨⟨rfl, List.nodup_nil, by decide, by simp, by decide⟩,
    (commit_collision_last_write_wins demoWorld [] demoT1 demoT2 [ascii "first"]
      [ascii "second"] [ascii "a.txt"] rfl List.nodup_nil (by decide) (by simp)
      (by decide)).2.1⟩

set_option maxRecDepth 100000 in
/-- The collision of C10 evaluated: one record, holding the second body. -/
theorem commit_collision_demo :
    (commit demoT2 [ascii "second"] (commit demoT1 [ascii "first"] demoWorld).world).world.commits
      = some [(ascii "2024-01-01T12-00-00",
          ascii "tree da39a3ee5e6b4b0d3255bfef95601890afd80709\n\nsecond\n")] := by
  decide

end GoGit
